import Mathlib

set_option maxHeartbeats 1000000

/-!
Verification of the json-register library: a content-addressed registration
cache.  JSON values are canonicalised (object keys sorted, whitespace removed)
and mapped to integer ids by a backing store, fronted by a bounded LRU cache.

The definitions below are a shallow embedding of the Python sources:
`_canonicalise.py` (canonicalise_json, built on json.dumps),
`_utils.py` (validate_config), `sync.py` (JsonRegisterCache) and
`async_.py` (JsonRegisterCacheAsync).  The backing PostgreSQL store is an
external collaborator and is modelled as an oracle function; hypotheses on the
oracle transcribe the store contract of the specification.
-/

/-- Scalar Python dictionary keys.  Python dict keys appearing in the claims
are strings and ints; json.dumps coerces an int key to its decimal string. -/
inductive JKey where
  | kstr (s : String)
  | kint (n : Int)
deriving DecidableEq

/-- Python JSON-like values, mirroring the alias
`JsonType = Union[Dict[str, Any], List[Any], str, int, float, bool, None]`
from `_canonicalise.py`.  Numbers are modelled by integers (the claims do not
exercise floats).  `foreign` models a value of a non-JSON-serialisable type
(e.g. a set), on which json.dumps raises TypeError. -/
inductive Json where
  | null
  | bool (b : Bool)
  | num (n : Int)
  | str (s : String)
  | arr (xs : List Json)
  | obj (kvs : List (JKey × Json))
  | foreign (tag : String)

/-- Lower-case hexadecimal digit, as used by CPython's `\u%04x` escape. -/
def hexDigitChar (n : Nat) : Char :=
  if n < 10 then Char.ofNat (48 + n) else Char.ofNat (87 + n)

/-- Four lower-case hex digits. -/
def hex4 (n : Nat) : String :=
  String.mk [hexDigitChar (n / 4096 % 16), hexDigitChar (n / 256 % 16),
             hexDigitChar (n / 16 % 16), hexDigitChar (n % 16)]

/-- One character of CPython's json string escaping with ensure_ascii=False:
the characters `"` and backslash and the C0 controls are escaped, everything
else (including non-ASCII) is emitted literally. -/
def escapeJsonChar (c : Char) : String :=
  if c = '"' then "\\\""
  else if c = '\\' then "\\\\"
  else if c = '\n' then "\\n"
  else if c = '\r' then "\\r"
  else if c = '\t' then "\\t"
  else if c = Char.ofNat 8 then "\\b"
  else if c = Char.ofNat 12 then "\\f"
  else if c.toNat < 32 then "\\u" ++ hex4 c.toNat
  else String.singleton c

/-- CPython `json.encoder.py_encode_basestring` (ensure_ascii=False variant):
a JSON string literal with escaping. -/
def encode_basestring (s : String) : String :=
  "\"" ++ String.join (s.data.map escapeJsonChar) ++ "\""

/-- The string form a dict key takes in json.dumps output: string keys are
kept, int keys are coerced via `int.__repr__`. -/
def jkeyStr : JKey → String
  | .kstr s => s
  | .kint n => toString n

/-- Lexicographic code-point comparison of character lists, Python's `<=` on
strings. -/
def charsLE : List Char → List Char → Bool
  | [], _ => true
  | _ :: _, [] => false
  | a :: as, b :: bs =>
    if a.toNat < b.toNat then true
    else if a.toNat = b.toNat then charsLE as bs
    else false

/-- Python's `<=` on strings (code-point lexicographic). -/
def pyStrLE (s t : String) : Bool := charsLE s.data t.data

/-- Python's `<=` on dict keys as used by `sorted`: strings compare
lexicographically by code point, ints numerically.  Comparing an int with a
str raises TypeError in Python; `canonicalise_json` therefore fails on
mixed-key dicts before any order produced here is used, so the value returned
on the mixed cases is an arbitrary total extension (never observed). -/
def keyLE : JKey → JKey → Bool
  | .kstr a, .kstr b => pyStrLE a b
  | .kint a, .kint b => decide (a ≤ b)
  | .kint _, .kstr _ => true
  | .kstr _, .kint _ => false

/-- Order on key/value pairs induced by the key alone (dict keys are unique in
Python, so `sorted(dct.items())` never compares the values). -/
def pairKeyLE {α : Type} (p q : JKey × α) : Bool := keyLE p.1 q.1

/-- Insert into a sorted list (the building block of the stable sort used to
model Python's `sorted`). -/
def insertLE {α : Type} (le : α → α → Bool) (a : α) : List α → List α
  | [] => [a]
  | b :: l => if le a b then a :: b :: l else b :: insertLE le a l

/-- Stable insertion sort; agrees with Python's `sorted` (also stable) for any
total transitive comparator. -/
def sortLE {α : Type} (le : α → α → Bool) : List α → List α
  | [] => []
  | a :: l => insertLE le a (sortLE le l)

def isIntKey : JKey → Bool
  | .kint _ => true
  | .kstr _ => false

def isStrKey : JKey → Bool
  | .kstr _ => true
  | .kint _ => false

/-- A dict has both an int key and a str key; `sorted` raises TypeError on
such a dict (unorderable types), which `canonicalise_json` converts to
CanonicalisationError. -/
def mixedKeys (kvs : List (JKey × Json)) : Bool :=
  (kvs.any fun p => isIntKey p.1) && (kvs.any fun p => isStrKey p.1)

/-- Sequential fallible map; models a Python list comprehension that raises at
the first failing element.  With `Option` as the error monad this coincides
with mapM, spelled out for easy equational reasoning. -/
def mapOption {α β : Type} (f : α → Option β) : List α → Option (List β)
  | [] => some []
  | a :: l =>
    match f a with
    | none => none
    | some b =>
      match mapOption f l with
      | none => none
      | some bs => some (b :: bs)

mutual
/-- Models `json.dumps(value, sort_keys=sk, separators=(isep, ksep),
ensure_ascii=False)`: `none` models the call raising (TypeError on a
non-serialisable value, TypeError from `sorted` on unorderable mixed keys).
Like CPython, object entries are sorted by raw key when `sk` is true and dict
order is kept otherwise, and array order is always preserved. -/
def json_dumps (sk : Bool) (isep ksep : String) : Json → Option String
  | .null => some "null"
  | .bool b => some (if b then "true" else "false")
  | .num n => some (toString n)
  | .str s => some (encode_basestring s)
  | .foreign _ => none
  | .arr xs =>
    match json_dumpsList sk isep ksep xs with
    | none => none
    | some parts => some ("[" ++ String.intercalate isep parts ++ "]")
  | .obj kvs =>
    if sk && mixedKeys kvs then none
    else
      match json_dumpsEntries sk isep ksep kvs with
      | none => none
      | some pairs =>
        let ordered := if sk then sortLE pairKeyLE pairs else pairs
        some ("\x7b" ++
          String.intercalate isep
            (ordered.map fun p => encode_basestring (jkeyStr p.1) ++ ksep ++ p.2)
          ++ "\x7d")

/-- Renders the elements of a JSON array in order. -/
def json_dumpsList (sk : Bool) (isep ksep : String) : List Json → Option (List String)
  | [] => some []
  | x :: xs =>
    match json_dumps sk isep ksep x with
    | none => none
    | some s =>
      match json_dumpsList sk isep ksep xs with
      | none => none
      | some rest => some (s :: rest)

/-- Renders the values of the entries of a JSON object, keeping the keys. -/
def json_dumpsEntries (sk : Bool) (isep ksep : String) : List (JKey × Json) → Option (List (JKey × String))
  | [] => some []
  | (k, v) :: rest =>
    match json_dumps sk isep ksep v with
    | none => none
    | some s =>
      match json_dumpsEntries sk isep ksep rest with
      | none => none
      | some r => some ((k, s) :: r)
end

/-- `canonicalise_json` from `_canonicalise.py`:
`json.dumps(obj, sort_keys=True, separators=(",", ":"), ensure_ascii=False)`,
with a raised exception (CanonicalisationError) modelled as `none`. -/
def canonicalise_json (v : Json) : Option String :=
  json_dumps true "," ":" v

/-- The plain serialisation `json.dumps(json_obj, ensure_ascii=False)` used by
both registrars when sending a value to the store: default separators
`(", ", ": ")` and no key sorting. -/
def json_dumps_default (v : Json) : Option String :=
  json_dumps false ", " ": " v

mutual
/-- Recursive sorting of object keys, leaving array order untouched: the
specification-side notion of two JSON values being equal up to recursive
object-key ordering.  Two values are related exactly when their normal forms
coincide.  This definition follows the spec's words and is compared with
`canonicalise_json`, which comes from the source. -/
def normalizeJson : Json → Json
  | .null => .null
  | .bool b => .bool b
  | .num n => .num n
  | .str s => .str s
  | .foreign t => .foreign t
  | .arr xs => .arr (normalizeJsonList xs)
  | .obj kvs => .obj (sortLE pairKeyLE (normalizeJsonEntries kvs))

def normalizeJsonList : List Json → List Json
  | [] => []
  | x :: xs => normalizeJson x :: normalizeJsonList xs

def normalizeJsonEntries : List (JKey × Json) → List (JKey × Json)
  | [] => []
  | (k, v) :: rest => (k, normalizeJson v) :: normalizeJsonEntries rest
end

/-! ## The bounded LRU cache

Models the `lru.LRU` fixed-capacity dictionary used by both registrars:
`k in lru` is a non-mutating membership test, `lru[k]` returns the value and
refreshes the key's recency, `lru[k] = v` inserts at most-recently-used
position, evicting the least-recently-used entry when a new key would exceed
the capacity.  Entries are held most-recently-used first. -/

/-- First value bound to a key in an association list. -/
def assocFind (k : String) : List (String × Int) → Option Int
  | [] => none
  | (a, v) :: l => if k = a then some v else assocFind k l

/-- Drops every entry bound to the given key. -/
def eraseKey (k : String) : List (String × Int) → List (String × Int)
  | [] => []
  | (a, v) :: l => if a = k then eraseKey k l else (a, v) :: eraseKey k l

/-- The fixed-capacity recency-ordered cache (`self._cache : LRU[str, int]`). -/
structure LRU where
  capacity : Nat
  entries : List (String × Int)
deriving DecidableEq

namespace LRU

/-- Membership (`canonical in self._cache`): no recency side effect. -/
def contains (c : LRU) (k : String) : Bool := (assocFind k c.entries).isSome

/-- Lookup (`self._cache[canonical]`): returns the value and moves the key to
the most-recently-used position. -/
def getRefresh (c : LRU) (k : String) : Option Int × LRU :=
  match assocFind k c.entries with
  | none => (none, c)
  | some v => (some v, ⟨c.capacity, (k, v) :: eraseKey k c.entries⟩)

/-- Insertion (`self._cache[canonical] = obj_id`): an existing key is updated
and moved to the front; a new key is inserted at the front, evicting the
least-recently-used entry if the cache is full. -/
def put (c : LRU) (k : String) (v : Int) : LRU :=
  if (assocFind k c.entries).isSome then
    ⟨c.capacity, (k, v) :: eraseKey k c.entries⟩
  else if c.capacity ≤ c.entries.length then
    ⟨c.capacity, (k, v) :: c.entries.dropLast⟩
  else
    ⟨c.capacity, (k, v) :: c.entries⟩

/-- Sequential lookups `[self._cache[c] for c in canonicals]`; each lookup
refreshes recency before the next one runs. -/
def getAll (c : LRU) : List String → List Int × LRU
  | [] => ([], c)
  | k :: ks =>
    let r := c.getRefresh k
    let rest := r.2.getAll ks
    ((r.1.getD 0) :: rest.1, rest.2)

/-- Sequential insertions `for canonical, obj_id in zip(canonicals, ids)`. -/
def putAll (c : LRU) : List (String × Int) → LRU
  | [] => c
  | (k, v) :: rest => (c.put k v).putAll rest

end LRU

/-! ## The registrars

The PostgreSQL store is an external collaborator; a call to it is modelled by
an oracle function from the serialised payload to a reply.  `fail` models a
`psycopg.Error`/`asyncpg.PostgresError` being raised (surfaced as
ConnectionError); `rows` models the fetched result. -/

/-- Decidable equality for `Except`, so outcomes can be compared by `decide`. -/
instance {ε α : Type} [DecidableEq ε] [DecidableEq α] : DecidableEq (Except ε α) := fun x y =>
  match x, y with
  | .error a, .error b =>
    if h : a = b then .isTrue (congrArg Except.error h)
    else .isFalse fun hh => h (Except.error.inj hh)
  | .ok a, .ok b =>
    if h : a = b then .isTrue (congrArg Except.ok h)
    else .isFalse fun hh => h (Except.ok.inj hh)
  | .error _, .ok _ => .isFalse fun hh => Except.noConfusion hh
  | .ok _, .error _ => .isFalse fun hh => Except.noConfusion hh

/-- Reply of one store round trip. -/
inductive StoreReply (α : Type) where
  | fail
  | rows (a : α)
deriving DecidableEq

/-- Errors a registration call can raise. -/
inductive RegError where
  | canonicalisationError
  | connectionError
  | invalidResponseError
deriving DecidableEq

/-- Observable outcome of `register_object`: the returned id or raised error,
the cache state after the call, and the payloads sent to the store in order. -/
structure SingleOutcome where
  result : Except RegError Int
  cache : LRU
  storeCalls : List String
deriving DecidableEq

/-- Observable outcome of `register_batch_objects`. -/
structure BatchOutcome where
  result : Except RegError (List Int)
  cache : LRU
  storeCalls : List (List String)
deriving DecidableEq

namespace JsonRegisterCache

/-- `JsonRegisterCache.register_object` from `sync.py`: canonicalise, consult
the LRU cache, otherwise send `json.dumps(json_obj, ensure_ascii=False)` to the
store; a `None` row is InvalidResponseError; the cache is updated only after a
successful store reply. -/
def register_object (store : String → StoreReply (Option Int)) (cache : LRU)
    (json_obj : Json) : SingleOutcome :=
  match canonicalise_json json_obj with
  | none => ⟨.error .canonicalisationError, cache, []⟩
  | some canonical =>
    if cache.contains canonical then
      let r := cache.getRefresh canonical
      ⟨.ok (r.1.getD 0), r.2, []⟩
    else
      match json_dumps_default json_obj with
      | none => ⟨.error .canonicalisationError, cache, []⟩
      | some json_str =>
        match store json_str with
        | .fail => ⟨.error .connectionError, cache, [json_str]⟩
        | .rows none => ⟨.error .invalidResponseError, cache, [json_str]⟩
        | .rows (some obj_id) => ⟨.ok obj_id, cache.put canonical obj_id, [json_str]⟩

/-- `JsonRegisterCache.register_batch_objects` from `sync.py`: empty input
short-circuits; all objects are canonicalised; if every canonical key is
cached the ids are read from the cache; otherwise one batch store call is
made, its row count validated against the input length, and only then is the
cache updated for every entry. -/
def register_batch_objects (store : List String → StoreReply (List Int)) (cache : LRU)
    (json_objects : List Json) : BatchOutcome :=
  if json_objects.isEmpty then ⟨.ok [], cache, []⟩
  else
    match mapOption canonicalise_json json_objects with
    | none => ⟨.error .canonicalisationError, cache, []⟩
    | some canonicals =>
      if canonicals.all cache.contains then
        let r := cache.getAll canonicals
        ⟨.ok r.1, r.2, []⟩
      else
        match mapOption json_dumps_default json_objects with
        | none => ⟨.error .canonicalisationError, cache, []⟩
        | some json_strs =>
          match store json_strs with
          | .fail => ⟨.error .connectionError, cache, [json_strs]⟩
          | .rows ids =>
            if ids.length ≠ json_objects.length then
              ⟨.error .invalidResponseError, cache, [json_strs]⟩
            else
              ⟨.ok ids, cache.putAll (canonicals.zip ids), [json_strs]⟩

end JsonRegisterCache

namespace JsonRegisterCacheAsync

/-- `JsonRegisterCacheAsync.register_object` from `async_.py`, transcribed
from its own source: the asyncpg variant differs only in transport (suspension
instead of blocking, `$1` placeholders, `fetchrow`), which the store oracle
abstracts; the registration logic is line-for-line the same. -/
def register_object (store : String → StoreReply (Option Int)) (cache : LRU)
    (json_obj : Json) : SingleOutcome :=
  match canonicalise_json json_obj with
  | none => ⟨.error .canonicalisationError, cache, []⟩
  | some canonical =>
    if cache.contains canonical then
      let r := cache.getRefresh canonical
      ⟨.ok (r.1.getD 0), r.2, []⟩
    else
      match json_dumps_default json_obj with
      | none => ⟨.error .canonicalisationError, cache, []⟩
      | some json_str =>
        match store json_str with
        | .fail => ⟨.error .connectionError, cache, [json_str]⟩
        | .rows none => ⟨.error .invalidResponseError, cache, [json_str]⟩
        | .rows (some obj_id) => ⟨.ok obj_id, cache.put canonical obj_id, [json_str]⟩

/-- `JsonRegisterCacheAsync.register_batch_objects` from `async_.py`,
transcribed from its own source. -/
def register_batch_objects (store : List String → StoreReply (List Int)) (cache : LRU)
    (json_objects : List Json) : BatchOutcome :=
  if json_objects.isEmpty then ⟨.ok [], cache, []⟩
  else
    match mapOption canonicalise_json json_objects with
    | none => ⟨.error .canonicalisationError, cache, []⟩
    | some canonicals =>
      if canonicals.all cache.contains then
        let r := cache.getAll canonicals
        ⟨.ok r.1, r.2, []⟩
      else
        match mapOption json_dumps_default json_objects with
        | none => ⟨.error .canonicalisationError, cache, []⟩
        | some json_strs =>
          match store json_strs with
          | .fail => ⟨.error .connectionError, cache, [json_strs]⟩
          | .rows ids =>
            if ids.length ≠ json_objects.length then
              ⟨.error .invalidResponseError, cache, [json_strs]⟩
            else
              ⟨.ok ids, cache.putAll (canonicals.zip ids), [json_strs]⟩

end JsonRegisterCacheAsync

/-! ## Configuration validation -/

/-- Construction parameters of the registrars. -/
structure Config where
  database_name : String
  database_host : String
  database_port : Int
  database_user : String
  table_name : String
  id_column : String
  jsonb_column : String
  lru_cache_size : Int
  pool_size : Int

/-- Python `str.isalnum()`: non-empty and every character alphanumeric.
Modelled for ASCII strings (Lean's `Char.isAlphanum` is ASCII); Python's
`isalnum` is Unicode-aware, so theorems using this restrict names to ASCII. -/
def pyIsAlnum (s : String) : Bool :=
  !s.data.isEmpty && s.data.all Char.isAlphanum

/-- Python `s.replace("_", "")`. -/
def removeUnderscores (s : String) : String :=
  String.mk (s.data.filter fun c => c != '_')

/-- `validate_config` from `_utils.py`: each raised ConfigurationError is
modelled as `Except.error` with the exact message. -/
def validate_config (c : Config) : Except String Unit :=
  if c.database_name.data.isEmpty then .error "database_name cannot be empty"
  else if c.database_host.data.isEmpty then .error "database_host cannot be empty"
  else if ¬ (1 ≤ c.database_port ∧ c.database_port ≤ 65535) then
    .error "database_port must be between 1 and 65535"
  else if c.database_user.data.isEmpty then .error "database_user cannot be empty"
  else if c.table_name.data.isEmpty || !pyIsAlnum (removeUnderscores c.table_name) then
    .error "table_name must be alphanumeric (with underscores)"
  else if c.id_column.data.isEmpty || !pyIsAlnum (removeUnderscores c.id_column) then
    .error "id_column must be alphanumeric (with underscores)"
  else if c.jsonb_column.data.isEmpty || !pyIsAlnum (removeUnderscores c.jsonb_column) then
    .error "jsonb_column must be alphanumeric (with underscores)"
  else if c.lru_cache_size < 1 then .error "lru_cache_size must be at least 1"
  else if c.pool_size < 1 then .error "pool_size must be at least 1"
  else .ok ()

/-- Errors `JsonRegisterCache.__init__` can raise. -/
inductive InitError where
  | configurationError (msg : String)
  | connectionError
deriving DecidableEq

/-- Outcome of constructing a registrar: the built cache or the raised error,
and whether pool creation (the only network-touching step) was attempted. -/
structure InitOutcome where
  result : Except InitError LRU
  poolAttempted : Bool
deriving DecidableEq

/-- `JsonRegisterCache.__init__` from `sync.py`: validate_config runs first
and a ConfigurationError aborts construction before the connection pool is
created; pool creation failure surfaces as ConnectionError.  `poolOk` is the
oracle for whether `ConnectionPool(...)` succeeds. -/
def jsonRegisterCache_construct (c : Config) (poolOk : Bool) : InitOutcome :=
  match validate_config c with
  | .error msg => ⟨.error (.configurationError msg), false⟩
  | .ok _ =>
    if poolOk then ⟨.ok ⟨c.lru_cache_size.toNat, []⟩, true⟩
    else ⟨.error .connectionError, true⟩

/-! ## Graph model of `json.dumps` for cycle detection

`canonicalise_json` delegates to CPython's `json.dumps`, whose C encoder
tracks the identity of every container on the current recursion path in a
`markers` dict and raises `ValueError("Circular reference detected")` when a
container recurses into itself; a non-serialisable object raises `TypeError`.
Both are caught by `canonicalise_json` and re-raised as CanonicalisationError.
Cyclic values cannot be represented by an inductive tree, so this part of the
behaviour is modelled on an explicit heap: a value is an index into a list of
nodes, and sharing/cycles are expressed through indices.  The encoder takes
fuel; fuel exhaustion is a modelling artifact proven unreachable. -/

/-- A Python object in the heap: scalars, containers holding heap indices, or
a non-serialisable object. -/
inductive PyObj where
  | onull
  | obool (b : Bool)
  | oint (n : Int)
  | ostr (s : String)
  | olist (elems : List Nat)
  | odict (kvs : List (String × Nat))
  | oforeign (tag : String)
deriving DecidableEq

/-- Heap of Python objects; values are indices into it. -/
abbrev Heap := List PyObj

/-- How the graph encoder finishes early: `circular` is the ValueError for a
circular reference, `typeErr` the TypeError for a non-serialisable object,
`fuelOut` the (unreachable) fuel exhaustion. -/
inductive EncErr where
  | circular
  | typeErr
  | fuelOut
deriving DecidableEq

/-- Order on string-keyed pairs by key only, as used for `sorted(d.items())`
on a dict with (unique) string keys. -/
def strPairLE {α : Type} (p q : String × α) : Bool := pyStrLE p.1 q.1

/-- Encodes a list of heap values, stopping at the first error. -/
def encParts (enc : Nat → Except EncErr String) : List Nat → Except EncErr (List String)
  | [] => .ok []
  | r :: rest =>
    match enc r with
    | .error e => .error e
    | .ok s =>
      match encParts enc rest with
      | .error e => .error e
      | .ok ss => .ok (s :: ss)

/-- Encodes dict entries as `"key":value` chunks, stopping at the first
error. -/
def encEntryParts (enc : Nat → Except EncErr String) :
    List (String × Nat) → Except EncErr (List String)
  | [] => .ok []
  | (k, r) :: rest =>
    match enc r with
    | .error e => .error e
    | .ok s =>
      match encEntryParts enc rest with
      | .error e => .error e
      | .ok ss => .ok ((encode_basestring k ++ ":" ++ s) :: ss)

/-- CPython's `_iterencode` with circular-reference markers, over the heap
model, with the separators of `canonicalise_json`: `markers` holds the heap
indices of the containers on the current path; entering a container already in
`markers` raises the circular-reference ValueError; dict entries are rendered
in sorted key order (`sort_keys=True`). -/
def iterencode (heap : Heap) : Nat → List Nat → Nat → Except EncErr String
  | 0, _, _ => .error .fuelOut
  | fuel + 1, markers, i =>
    match heap[i]? with
    | none => .error .typeErr
    | some .onull => .ok "null"
    | some (.obool b) => .ok (if b then "true" else "false")
    | some (.oint n) => .ok (toString n)
    | some (.ostr s) => .ok (encode_basestring s)
    | some (.oforeign _) => .error .typeErr
    | some (.olist elems) =>
      if i ∈ markers then .error .circular
      else
        match encParts (iterencode heap fuel (i :: markers)) elems with
        | .error e => .error e
        | .ok parts => .ok ("[" ++ String.intercalate "," parts ++ "]")
    | some (.odict kvs) =>
      if i ∈ markers then .error .circular
      else
        match encEntryParts (iterencode heap fuel (i :: markers)) (sortLE strPairLE kvs) with
        | .error e => .error e
        | .ok parts => .ok ("\x7b" ++ String.intercalate "," parts ++ "\x7d")

/-- Heap indices a node directly contains. -/
def children : PyObj → List Nat
  | .olist es => es
  | .odict kvs => kvs.map Prod.snd
  | _ => []

/-- Children of the node stored at an index (none outside the heap). -/
def childrenAt (heap : Heap) (i : Nat) : List Nat :=
  match heap[i]? with
  | some o => children o
  | none => []

/-- One step of containment between heap indices. -/
def Edge (heap : Heap) (a b : Nat) : Prop := b ∈ childrenAt heap a

/-- Reflexive-transitive containment. -/
def Reaches (heap : Heap) : Nat → Nat → Prop := Relation.ReflTransGen (Edge heap)

/-- The structure rooted at `i` is self-referential: some reachable node lies
on a containment cycle. -/
def CyclicFrom (heap : Heap) (i : Nat) : Prop :=
  ∃ j, Reaches heap i j ∧ Relation.TransGen (Edge heap) j j

/-- Some reachable node is not JSON-serialisable. -/
def ForeignFrom (heap : Heap) (i : Nat) : Prop :=
  ∃ j t, Reaches heap i j ∧ heap[j]? = some (.oforeign t)

/-- Every reference in the heap points inside the heap (automatic for a real
Python object graph). -/
def HeapWF (heap : Heap) : Prop :=
  ∀ i, ∀ j ∈ childrenAt heap i, j < heap.length

/-- Whether a heap node is a non-serialisable object. -/
def isForeignObj : PyObj → Bool
  | .oforeign _ => true
  | _ => false

/-! ## Basic evaluation checks -/

example : canonicalise_json (.obj [(.kstr "b", .num 2), (.kstr "a", .num 1)]) =
    some "\x7b\"a\":1,\"b\":2\x7d" := by decide

example : canonicalise_json (.obj [(.kstr "items", .arr [.num 3, .num 1, .num 2])]) =
    some "\x7b\"items\":[3,1,2]\x7d" := by decide

example : json_dumps_default (.obj [(.kstr "b", .num 2), (.kstr "a", .num 1)]) =
    some "\x7b\"b\": 2, \"a\": 1\x7d" := by decide

example : iterencode [PyObj.olist [0]] 2 [] 0 = .error .circular := by decide

example : iterencode [PyObj.odict [("a", 1)], PyObj.oint 5] 3 [] 0 =
    .ok "\x7b\"a\":5\x7d" := by decide

/-! ## Comparator lemmas -/

theorem charsLE_total : ∀ as bs : List Char, charsLE as bs = true ∨ charsLE bs as = true := by
  intro as
  induction as with
  | nil => intro bs; left; rfl
  | cons a as ih =>
    intro bs
    cases bs with
    | nil => right; rfl
    | cons b bs =>
      by_cases h1 : a.toNat < b.toNat
      · left; simp [charsLE, h1]
      · by_cases h2 : a.toNat = b.toNat
        · have hba : ¬ b.toNat < a.toNat := by omega
          have hbe : b.toNat = a.toNat := h2.symm
          rcases ih bs with h | h
          · left; simp [charsLE, h1, h2, h]
          · right; simp [charsLE, hba, hbe, h]
        · right
          have : b.toNat < a.toNat := by omega
          simp [charsLE, this]

theorem charsLE_trans : ∀ as bs cs : List Char,
    charsLE as bs = true → charsLE bs cs = true → charsLE as cs = true := by
  intro as
  induction as with
  | nil => intro bs cs _ _; rfl
  | cons a as ih =>
    intro bs cs h1 h2
    cases bs with
    | nil => simp [charsLE] at h1
    | cons b bs =>
      cases cs with
      | nil => simp [charsLE] at h2
      | cons c cs =>
        by_cases hab : a.toNat < b.toNat
        · by_cases hbc : b.toNat < c.toNat
          · have : a.toNat < c.toNat := by omega
            simp [charsLE, this]
          · by_cases hbc2 : b.toNat = c.toNat
            · have : a.toNat < c.toNat := by omega
              simp [charsLE, this]
            · simp [charsLE, hbc, hbc2] at h2
        · by_cases hab2 : a.toNat = b.toNat
          · have h1' : charsLE as bs = true := by simpa [charsLE, hab, hab2] using h1
            by_cases hbc : b.toNat < c.toNat
            · have : a.toNat < c.toNat := by omega
              simp [charsLE, this]
            · by_cases hbc2 : b.toNat = c.toNat
              · have h2' : charsLE bs cs = true := by simpa [charsLE, hbc, hbc2] using h2
                have hac : ¬ a.toNat < c.toNat := by omega
                have hac2 : a.toNat = c.toNat := by omega
                simp [charsLE, hac, hac2, ih bs cs h1' h2']
              · simp [charsLE, hbc, hbc2] at h2
          · simp [charsLE, hab, hab2] at h1

theorem pyStrLE_total (s t : String) : pyStrLE s t = true ∨ pyStrLE t s = true :=
  charsLE_total s.data t.data

theorem pyStrLE_trans {s t u : String} (h1 : pyStrLE s t = true) (h2 : pyStrLE t u = true) :
    pyStrLE s u = true :=
  charsLE_trans s.data t.data u.data h1 h2

theorem keyLE_total : ∀ a b : JKey, keyLE a b = true ∨ keyLE b a = true := by
  intro a b
  cases a <;> cases b <;> simp [keyLE, decide_eq_true_iff]
  · exact pyStrLE_total ..
  · omega

theorem keyLE_trans : ∀ a b c : JKey, keyLE a b = true → keyLE b c = true → keyLE a c = true := by
  intro a b c
  cases a <;> cases b <;> cases c <;> simp [keyLE, decide_eq_true_iff] <;>
    first
    | exact fun h1 h2 => pyStrLE_trans h1 h2
    | omega

theorem pairKeyLE_total {α : Type} (p q : JKey × α) :
    pairKeyLE p q = true ∨ pairKeyLE q p = true :=
  keyLE_total p.1 q.1

theorem pairKeyLE_trans {α : Type} (p q r : JKey × α) :
    pairKeyLE p q = true → pairKeyLE q r = true → pairKeyLE p r = true :=
  keyLE_trans p.1 q.1 r.1

theorem strPairLE_total {α : Type} (p q : String × α) :
    strPairLE p q = true ∨ strPairLE q p = true :=
  pyStrLE_total p.1 q.1

theorem strPairLE_trans {α : Type} (p q r : String × α) :
    strPairLE p q = true → strPairLE q r = true → strPairLE p r = true :=
  fun h1 h2 => pyStrLE_trans h1 h2

/-! ## Sorting lemmas -/

theorem mem_insertLE {α : Type} (le : α → α → Bool) (a : α) (l : List α) (x : α) :
    x ∈ insertLE le a l ↔ x = a ∨ x ∈ l := by
  induction l with
  | nil => simp [insertLE]
  | cons b t ih =>
    by_cases h : le a b = true
    · simp only [insertLE, if_pos h, List.mem_cons]
    · simp only [insertLE, if_neg h, List.mem_cons, ih]
      tauto

theorem insertLE_perm {α : Type} (le : α → α → Bool) (a : α) (l : List α) :
    (insertLE le a l).Perm (a :: l) := by
  induction l with
  | nil => simp [insertLE]
  | cons b t ih =>
    by_cases h : le a b = true
    · simp [insertLE, h]
    · simp only [insertLE, if_neg h]
      exact (ih.cons b).trans (List.Perm.swap a b t)

theorem sortLE_perm {α : Type} (le : α → α → Bool) (l : List α) : (sortLE le l).Perm l := by
  induction l with
  | nil => simp [sortLE]
  | cons a t ih =>
    show (insertLE le a (sortLE le t)).Perm (a :: t)
    exact (insertLE_perm le a (sortLE le t)).trans (ih.cons a)

theorem mem_sortLE {α : Type} (le : α → α → Bool) (l : List α) (x : α) :
    x ∈ sortLE le l ↔ x ∈ l :=
  (sortLE_perm le l).mem_iff

theorem pairwise_insertLE {α : Type} {le : α → α → Bool}
    (htot : ∀ a b, le a b = true ∨ le b a = true)
    (htrans : ∀ a b c, le a b = true → le b c = true → le a c = true)
    (a : α) {l : List α} (hl : l.Pairwise fun x y => le x y = true) :
    (insertLE le a l).Pairwise fun x y => le x y = true := by
  induction l with
  | nil => simp [insertLE]
  | cons b t ih =>
    rcases List.pairwise_cons.mp hl with ⟨hb, ht⟩
    by_cases h : le a b = true
    · simp only [insertLE, if_pos h]
      refine List.Pairwise.cons ?_ hl
      intro x hx
      rcases List.mem_cons.mp hx with rfl | hx
      · exact h
      · exact htrans a b x h (hb x hx)
    · simp only [insertLE, if_neg h]
      refine List.Pairwise.cons ?_ (ih ht)
      intro x hx
      rcases (mem_insertLE le a t x).mp hx with rfl | hx
      · rcases htot x b with h' | h'
        · exact absurd h' h
        · exact h'
      · exact hb x hx

theorem pairwise_sortLE {α : Type} {le : α → α → Bool}
    (htot : ∀ a b, le a b = true ∨ le b a = true)
    (htrans : ∀ a b c, le a b = true → le b c = true → le a c = true)
    (l : List α) : (sortLE le l).Pairwise fun x y => le x y = true := by
  induction l with
  | nil => simp [sortLE]
  | cons a t ih =>
    show (insertLE le a (sortLE le t)).Pairwise fun x y => le x y = true
    exact pairwise_insertLE htot htrans a ih

theorem sortLE_eq_of_pairwise {α : Type} {le : α → α → Bool} :
    ∀ {l : List α}, (l.Pairwise fun x y => le x y = true) → sortLE le l = l := by
  intro l
  induction l with
  | nil => intro _; rfl
  | cons a t ih =>
    intro hl
    rcases List.pairwise_cons.mp hl with ⟨ha, ht⟩
    show insertLE le a (sortLE le t) = a :: t
    rw [ih ht]
    cases t with
    | nil => rfl
    | cons b t' =>
      have hb : le a b = true := ha b (List.mem_cons_self b t')
      simp [insertLE, hb]

theorem sortLE_idem {α : Type} {le : α → α → Bool}
    (htot : ∀ a b, le a b = true ∨ le b a = true)
    (htrans : ∀ a b c, le a b = true → le b c = true → le a c = true)
    (l : List α) : sortLE le (sortLE le l) = sortLE le l :=
  sortLE_eq_of_pairwise (pairwise_sortLE htot htrans l)

theorem insertLE_map {α β : Type} (f : α → β) (le1 : α → α → Bool) (le2 : β → β → Bool)
    (hle : ∀ a b, le2 (f a) (f b) = le1 a b) (a : α) (l : List α) :
    insertLE le2 (f a) (l.map f) = (insertLE le1 a l).map f := by
  induction l with
  | nil => rfl
  | cons b t ih =>
    by_cases h : le1 a b = true
    · simp [insertLE, hle, h]
    · simp [insertLE, hle, h, ih]

theorem sortLE_map {α β : Type} (f : α → β) (le1 : α → α → Bool) (le2 : β → β → Bool)
    (hle : ∀ a b, le2 (f a) (f b) = le1 a b) :
    ∀ l : List α, sortLE le2 (l.map f) = (sortLE le1 l).map f := by
  intro l
  induction l with
  | nil => rfl
  | cons a t ih =>
    show insertLE le2 (f a) (sortLE le2 (t.map f)) = (insertLE le1 a (sortLE le1 t)).map f
    rw [ih, insertLE_map f le1 le2 hle]

theorem perm_any {α : Type} {l1 l2 : List α} (h : l1.Perm l2) (p : α → Bool) :
    l1.any p = l2.any p := by
  cases hh : l2.any p
  · rw [List.any_eq_false] at hh ⊢
    intro a ha
    exact hh a (h.mem_iff.mp ha)
  · rw [List.any_eq_true] at hh ⊢
    rcases hh with ⟨a, ha, hp⟩
    exact ⟨a, h.mem_iff.mpr ha, hp⟩

/-! ## mapOption lemmas -/

theorem mapOption_forall2 {α β : Type} (f : α → Option β) :
    ∀ (l : List α) (bs : List β),
      mapOption f l = some bs ↔ List.Forall₂ (fun a b => f a = some b) l bs := by
  intro l
  induction l with
  | nil =>
    intro bs
    constructor
    · intro h
      have hbs : bs = [] := by simpa [mapOption] using h.symm
      subst hbs
      exact List.Forall₂.nil
    · intro h
      cases h
      rfl
  | cons a t ih =>
    intro bs
    constructor
    · intro h
      simp only [mapOption] at h
      cases hfa : f a with
      | none => rw [hfa] at h; cases h
      | some b =>
        rw [hfa] at h
        cases hmt : mapOption f t with
        | none => rw [hmt] at h; cases h
        | some bs' =>
          rw [hmt] at h
          cases h
          exact List.Forall₂.cons hfa ((ih bs').mp hmt)
    · intro h
      cases h with
      | cons hab htail =>
        have hmt := (ih _).mpr htail
        simp only [mapOption, hab, hmt]

theorem mapOption_length {α β : Type} {f : α → Option β} {l : List α} {bs : List β}
    (h : mapOption f l = some bs) : bs.length = l.length :=
  (((mapOption_forall2 f l bs).mp h).length_eq).symm

theorem mapOption_none_iff {α β : Type} (f : α → Option β) :
    ∀ l : List α, mapOption f l = none ↔ ∃ a ∈ l, f a = none := by
  intro l
  induction l with
  | nil => simp [mapOption]
  | cons a t ih =>
    cases hfa : f a with
    | none => simp [mapOption, hfa]
    | some b =>
      cases hmt : mapOption f t with
      | none =>
        simp only [mapOption, hfa, hmt]
        constructor
        · intro _
          rcases (ih).mp hmt with ⟨x, hx, hfx⟩
          exact ⟨x, List.mem_cons_of_mem a hx, hfx⟩
        · intro _
          trivial
      | some bs =>
        simp only [mapOption, hfa, hmt]
        constructor
        · intro h; cases h
        · rintro ⟨x, hx, hfx⟩
          rcases List.mem_cons.mp hx with rfl | hx
          · rw [hfa] at hfx; cases hfx
          · have hn : mapOption f t = none := (ih).mpr ⟨x, hx, hfx⟩
            rw [hn] at hmt; cases hmt

theorem mapOption_eq_some_of_forall {α β : Type} {f : α → Option β} {g : α → β} :
    ∀ {l : List α}, (∀ a ∈ l, f a = some (g a)) → mapOption f l = some (l.map g) := by
  intro l
  induction l with
  | nil => intro _; rfl
  | cons a t ih =>
    intro h
    simp only [mapOption, h a (List.mem_cons_self a t), List.map_cons]
    rw [ih fun x hx => h x (List.mem_cons_of_mem a hx)]

theorem mapOption_congr {α β : Type} {f g : α → Option β} :
    ∀ {l : List α}, (∀ a ∈ l, f a = g a) → mapOption f l = mapOption g l := by
  intro l
  induction l with
  | nil => intro _; rfl
  | cons a t ih =>
    intro h
    simp only [mapOption, h a (List.mem_cons_self a t)]
    rw [ih fun x hx => h x (List.mem_cons_of_mem a hx)]

theorem mapOption_map {α β γ : Type} (f : β → Option γ) (g : α → β) :
    ∀ l : List α, mapOption f (l.map g) = mapOption (fun a => f (g a)) l := by
  intro l
  induction l with
  | nil => rfl
  | cons a t ih => simp only [List.map_cons, mapOption, ih]

/-! ## Induction over Json with membership hypotheses -/

theorem Json.recMem {P : Json → Prop}
    (h0 : P .null) (h1 : ∀ b, P (.bool b)) (h2 : ∀ n, P (.num n))
    (h3 : ∀ s, P (.str s)) (h4 : ∀ t, P (.foreign t))
    (h5 : ∀ xs, (∀ x ∈ xs, P x) → P (.arr xs))
    (h6 : ∀ kvs, (∀ kv ∈ kvs, P kv.2) → P (.obj kvs)) : ∀ v, P v
  | .null => h0
  | .bool b => h1 b
  | .num n => h2 n
  | .str s => h3 s
  | .foreign t => h4 t
  | .arr xs => h5 xs fun x hx => Json.recMem h0 h1 h2 h3 h4 h5 h6 x
  | .obj kvs => h6 kvs fun kv hkv => Json.recMem h0 h1 h2 h3 h4 h5 h6 kv.2
termination_by v => sizeOf v
decreasing_by
  · have := List.sizeOf_lt_of_mem hx
    simp only [Json.arr.sizeOf_spec]
    omega
  · have hkvs := List.sizeOf_lt_of_mem hkv
    have hsnd : sizeOf kv.2 < sizeOf kv := by
      obtain ⟨k, x⟩ := kv
      simp only [Prod.mk.sizeOf_spec]
      omega
    simp only [Json.obj.sizeOf_spec]
    omega

/-! ## Canonicalisation respects the key-order normal form -/

theorem normalizeJsonList_eq_map : ∀ xs, normalizeJsonList xs = xs.map normalizeJson := by
  intro xs
  induction xs with
  | nil => rfl
  | cons x t ih => simp [normalizeJsonList, ih]

theorem normalizeJsonEntries_eq_map :
    ∀ kvs : List (JKey × Json),
      normalizeJsonEntries kvs = kvs.map fun kv => (kv.1, normalizeJson kv.2) := by
  intro kvs
  induction kvs with
  | nil => rfl
  | cons kv t ih =>
    obtain ⟨k, v⟩ := kv
    simp [normalizeJsonEntries, ih]

theorem json_dumpsList_eq_mapOption (sk : Bool) (isep ksep : String) :
    ∀ xs, json_dumpsList sk isep ksep xs = mapOption (json_dumps sk isep ksep) xs := by
  intro xs
  induction xs with
  | nil => rfl
  | cons x t ih =>
    cases hx : json_dumps sk isep ksep x with
    | none => simp [json_dumpsList, mapOption, hx]
    | some s =>
      cases ht : mapOption (json_dumps sk isep ksep) t with
      | none => simp [json_dumpsList, mapOption, hx, ih, ht]
      | some rest => simp [json_dumpsList, mapOption, hx, ih, ht]

theorem json_dumpsEntries_eq_mapOption (sk : Bool) (isep ksep : String) :
    ∀ kvs, json_dumpsEntries sk isep ksep kvs =
      mapOption (fun kv : JKey × Json =>
        (json_dumps sk isep ksep kv.2).map fun s => (kv.1, s)) kvs := by
  intro kvs
  induction kvs with
  | nil => rfl
  | cons kv t ih =>
    obtain ⟨k, v⟩ := kv
    cases hv : json_dumps sk isep ksep v with
    | none => simp [json_dumpsEntries, mapOption, hv]
    | some s =>
      cases ht : mapOption (fun kv : JKey × Json =>
          (json_dumps sk isep ksep kv.2).map fun u => (kv.1, u)) t with
      | none => simp [json_dumpsEntries, mapOption, hv, ih, ht]
      | some r => simp [json_dumpsEntries, mapOption, hv, ih, ht]

theorem mixedKeys_sort_normalize (kvs : List (JKey × Json)) :
    mixedKeys (sortLE pairKeyLE (normalizeJsonEntries kvs)) = mixedKeys kvs := by
  unfold mixedKeys
  rw [perm_any (sortLE_perm pairKeyLE (normalizeJsonEntries kvs)),
      perm_any (sortLE_perm pairKeyLE (normalizeJsonEntries kvs)),
      normalizeJsonEntries_eq_map]
  rw [List.any_map, List.any_map]
  rfl

theorem canonicalise_json_normalize :
    ∀ v, canonicalise_json (normalizeJson v) = canonicalise_json v := by
  intro v
  unfold canonicalise_json
  induction v using Json.recMem with
  | h0 => rfl
  | h1 b => rfl
  | h2 n => rfl
  | h3 s => rfl
  | h4 t => rfl
  | h5 xs ih =>
    show json_dumps true "," ":" (.arr (normalizeJsonList xs)) = json_dumps true "," ":" (.arr xs)
    simp only [json_dumps]
    rw [json_dumpsList_eq_mapOption, json_dumpsList_eq_mapOption, normalizeJsonList_eq_map,
        mapOption_map, mapOption_congr fun x hx => ih x hx]
  | h6 kvs ih =>
    show json_dumps true "," ":" (.obj (sortLE pairKeyLE (normalizeJsonEntries kvs))) =
      json_dumps true "," ":" (.obj kvs)
    simp only [json_dumps, Bool.true_and]
    rw [mixedKeys_sort_normalize]
    cases hmix : mixedKeys kvs with
    | true => rfl
    | false =>
      simp only [Bool.false_eq_true, if_false]
      rw [json_dumpsEntries_eq_mapOption, json_dumpsEntries_eq_mapOption]
      by_cases hall : ∀ kv ∈ kvs, (json_dumps true "," ":" kv.2).isSome
      · have h1 : ∀ kv ∈ kvs,
            ((json_dumps true "," ":" kv.2).map fun s => (kv.1, s)) =
              some (kv.1, (json_dumps true "," ":" kv.2).getD "") := by
          intro kv hkv
          obtain ⟨s, hs⟩ := Option.isSome_iff_exists.mp (hall kv hkv)
          rw [hs]
          rfl
        have h2 : ∀ p ∈ sortLE pairKeyLE (normalizeJsonEntries kvs),
            ((json_dumps true "," ":" p.2).map fun s => (p.1, s)) =
              some (p.1, (json_dumps true "," ":" p.2).getD "") := by
          intro p hp
          have hp' : p ∈ normalizeJsonEntries kvs := (mem_sortLE _ _ _).mp hp
          rw [normalizeJsonEntries_eq_map] at hp'
          rcases List.mem_map.mp hp' with ⟨kv, hkv, rfl⟩
          have hiso : (json_dumps true "," ":" (normalizeJson kv.2)).isSome := by
            rw [ih kv hkv]
            exact hall kv hkv
          obtain ⟨s, hs⟩ := Option.isSome_iff_exists.mp hiso
          rw [hs]
          rfl
        rw [mapOption_eq_some_of_forall h2, mapOption_eq_some_of_forall h1]
        have hS : ((sortLE pairKeyLE (normalizeJsonEntries kvs)).map fun p : JKey × Json =>
              (p.1, (json_dumps true "," ":" p.2).getD "")) =
            sortLE pairKeyLE (kvs.map fun kv : JKey × Json =>
              (kv.1, (json_dumps true "," ":" kv.2).getD "")) := by
          rw [normalizeJsonEntries_eq_map]
          rw [← sortLE_map (fun p : JKey × Json => (p.1, (json_dumps true "," ":" p.2).getD ""))
                pairKeyLE pairKeyLE (fun a b => rfl)]
          rw [List.map_map]
          have : (kvs.map fun kv : JKey × Json =>
                (kv.1, (json_dumps true "," ":" (normalizeJson kv.2)).getD "")) =
              kvs.map fun kv : JKey × Json => (kv.1, (json_dumps true "," ":" kv.2).getD "") := by
            apply List.map_congr_left
            intro kv hkv
            rw [ih kv hkv]
          exact congrArg (sortLE pairKeyLE) this
        rw [hS]
        simp only [if_true]
        rw [sortLE_idem pairKeyLE_total pairKeyLE_trans]
      · push_neg at hall
        rcases hall with ⟨kv, hkv, hnone⟩
        have hnone' : json_dumps true "," ":" kv.2 = none := by
          cases h : json_dumps true "," ":" kv.2 with
          | none => rfl
          | some s => rw [h] at hnone; simp at hnone
        have hr : mapOption (fun kv : JKey × Json =>
            (json_dumps true "," ":" kv.2).map fun s => (kv.1, s)) kvs = none := by
          rw [mapOption_none_iff]
          exact ⟨kv, hkv, by rw [hnone']; rfl⟩
        have hl : mapOption (fun kv : JKey × Json =>
            (json_dumps true "," ":" kv.2).map fun s => (kv.1, s))
            (sortLE pairKeyLE (normalizeJsonEntries kvs)) = none := by
          rw [mapOption_none_iff]
          refine ⟨(kv.1, normalizeJson kv.2), ?_, ?_⟩
          · rw [mem_sortLE, normalizeJsonEntries_eq_map]
            exact List.mem_map.mpr ⟨kv, hkv, rfl⟩
          · show (json_dumps true "," ":" (normalizeJson kv.2)).map _ = none
            rw [ih kv hkv, hnone']
            rfl
        rw [hr, hl]

/-! ## LRU lemmas -/

theorem assocFind_eraseKey (k k' : String) (hne : k' ≠ k) :
    ∀ l : List (String × Int), assocFind k' (eraseKey k l) = assocFind k' l := by
  intro l
  induction l with
  | nil => rfl
  | cons p t ih =>
    obtain ⟨a, v⟩ := p
    by_cases ha : a = k
    · subst ha
      have he : eraseKey a ((a, v) :: t) = eraseKey a t := by simp [eraseKey]
      rw [he, ih]
      simp [assocFind, hne]
    · simp only [eraseKey, if_neg ha]
      by_cases hk : k' = a
      · simp [assocFind, hk]
      · simp [assocFind, hk, ih]

theorem getRefresh_fst (c : LRU) (k : String) :
    (c.getRefresh k).1 = assocFind k c.entries := by
  unfold LRU.getRefresh
  cases hf : assocFind k c.entries <;> simp [hf]

theorem getRefresh_find_preserved (c : LRU) (k k' : String) :
    assocFind k' (c.getRefresh k).2.entries = assocFind k' c.entries := by
  unfold LRU.getRefresh
  cases hf : assocFind k c.entries with
  | none => rfl
  | some v =>
    by_cases hk : k' = k
    · subst hk
      simp [assocFind, hf]
    · simp [assocFind, hk, assocFind_eraseKey k k' hk c.entries]

theorem put_find_self (c : LRU) (k : String) (v : Int) :
    assocFind k (c.put k v).entries = some v := by
  unfold LRU.put
  by_cases h1 : (assocFind k c.entries).isSome
  · simp [h1, assocFind]
  · by_cases h2 : c.capacity ≤ c.entries.length <;> simp [h1, h2, assocFind]

theorem getAll_fst (c : LRU) : ∀ ks : List String,
    (c.getAll ks).1 = ks.map fun k => (assocFind k c.entries).getD 0 := by
  intro ks
  induction ks generalizing c with
  | nil => rfl
  | cons k t ih =>
    show ((c.getRefresh k).1.getD 0) :: ((c.getRefresh k).2.getAll t).1 = _
    rw [ih ((c.getRefresh k).2), getRefresh_fst]
    simp only [List.map_cons]
    congr 1
    apply List.map_congr_left
    intro x _
    rw [getRefresh_find_preserved]

/-! ## Unfolding lemmas for the registrars, one per control-flow branch -/

theorem register_object_canonical_none (store : String → StoreReply (Option Int))
    (cache : LRU) (v : Json) (hc : canonicalise_json v = none) :
    JsonRegisterCache.register_object store cache v =
      ⟨.error .canonicalisationError, cache, []⟩ := by
  unfold JsonRegisterCache.register_object
  rw [hc]

theorem register_object_hit (store : String → StoreReply (Option Int))
    (cache : LRU) (v : Json) (canonical : String)
    (hc : canonicalise_json v = some canonical)
    (hin : cache.contains canonical = true) :
    JsonRegisterCache.register_object store cache v =
      ⟨.ok ((cache.getRefresh canonical).1.getD 0), (cache.getRefresh canonical).2, []⟩ := by
  unfold JsonRegisterCache.register_object
  rw [hc]
  simp [hin]

theorem register_object_miss_dumps_none (store : String → StoreReply (Option Int))
    (cache : LRU) (v : Json) (canonical : String)
    (hc : canonicalise_json v = some canonical)
    (hin : cache.contains canonical = false)
    (hd : json_dumps_default v = none) :
    JsonRegisterCache.register_object store cache v =
      ⟨.error .canonicalisationError, cache, []⟩ := by
  unfold JsonRegisterCache.register_object
  rw [hc]
  simp [hin, hd]

theorem register_object_miss_fail (store : String → StoreReply (Option Int))
    (cache : LRU) (v : Json) (canonical json_str : String)
    (hc : canonicalise_json v = some canonical)
    (hin : cache.contains canonical = false)
    (hd : json_dumps_default v = some json_str)
    (hs : store json_str = .fail) :
    JsonRegisterCache.register_object store cache v =
      ⟨.error .connectionError, cache, [json_str]⟩ := by
  unfold JsonRegisterCache.register_object
  rw [hc]
  simp [hin, hd, hs]

theorem register_object_miss_rows_none (store : String → StoreReply (Option Int))
    (cache : LRU) (v : Json) (canonical json_str : String)
    (hc : canonicalise_json v = some canonical)
    (hin : cache.contains canonical = false)
    (hd : json_dumps_default v = some json_str)
    (hs : store json_str = .rows none) :
    JsonRegisterCache.register_object store cache v =
      ⟨.error .invalidResponseError, cache, [json_str]⟩ := by
  unfold JsonRegisterCache.register_object
  rw [hc]
  simp [hin, hd, hs]

theorem register_object_miss_rows_some (store : String → StoreReply (Option Int))
    (cache : LRU) (v : Json) (canonical json_str : String) (obj_id : Int)
    (hc : canonicalise_json v = some canonical)
    (hin : cache.contains canonical = false)
    (hd : json_dumps_default v = some json_str)
    (hs : store json_str = .rows (some obj_id)) :
    JsonRegisterCache.register_object store cache v =
      ⟨.ok obj_id, cache.put canonical obj_id, [json_str]⟩ := by
  unfold JsonRegisterCache.register_object
  rw [hc]
  simp [hin, hd, hs]

theorem register_batch_empty (store : List String → StoreReply (List Int)) (cache : LRU) :
    JsonRegisterCache.register_batch_objects store cache [] = ⟨.ok [], cache, []⟩ := rfl

theorem register_batch_canonical_none (store : List String → StoreReply (List Int))
    (cache : LRU) (vs : List Json) (hne : vs.isEmpty = false)
    (hc : mapOption canonicalise_json vs = none) :
    JsonRegisterCache.register_batch_objects store cache vs =
      ⟨.error .canonicalisationError, cache, []⟩ := by
  unfold JsonRegisterCache.register_batch_objects
  rw [hne, hc]
  rfl

theorem register_batch_all_cached (store : List String → StoreReply (List Int))
    (cache : LRU) (vs : List Json) (canonicals : List String) (hne : vs.isEmpty = false)
    (hc : mapOption canonicalise_json vs = some canonicals)
    (hall : canonicals.all cache.contains = true) :
    JsonRegisterCache.register_batch_objects store cache vs =
      ⟨.ok (cache.getAll canonicals).1, (cache.getAll canonicals).2, []⟩ := by
  unfold JsonRegisterCache.register_batch_objects
  rw [hne, hc]
  simp [hall]

theorem register_batch_dumps_none (store : List String → StoreReply (List Int))
    (cache : LRU) (vs : List Json) (canonicals : List String) (hne : vs.isEmpty = false)
    (hc : mapOption canonicalise_json vs = some canonicals)
    (hall : canonicals.all cache.contains = false)
    (hd : mapOption json_dumps_default vs = none) :
    JsonRegisterCache.register_batch_objects store cache vs =
      ⟨.error .canonicalisationError, cache, []⟩ := by
  unfold JsonRegisterCache.register_batch_objects
  rw [hne, hc]
  simp [hall, hd]

theorem register_batch_store_fail (store : List String → StoreReply (List Int))
    (cache : LRU) (vs : List Json) (canonicals : List String) (json_strs : List String)
    (hne : vs.isEmpty = false)
    (hc : mapOption canonicalise_json vs = some canonicals)
    (hall : canonicals.all cache.contains = false)
    (hd : mapOption json_dumps_default vs = some json_strs)
    (hs : store json_strs = .fail) :
    JsonRegisterCache.register_batch_objects store cache vs =
      ⟨.error .connectionError, cache, [json_strs]⟩ := by
  unfold JsonRegisterCache.register_batch_objects
  rw [hne, hc]
  simp [hall, hd, hs]

theorem register_batch_store_badlen (store : List String → StoreReply (List Int))
    (cache : LRU) (vs : List Json) (canonicals : List String) (json_strs : List String)
    (ids : List Int) (hne : vs.isEmpty = false)
    (hc : mapOption canonicalise_json vs = some canonicals)
    (hall : canonicals.all cache.contains = false)
    (hd : mapOption json_dumps_default vs = some json_strs)
    (hs : store json_strs = .rows ids)
    (hlen : ids.length ≠ vs.length) :
    JsonRegisterCache.register_batch_objects store cache vs =
      ⟨.error .invalidResponseError, cache, [json_strs]⟩ := by
  unfold JsonRegisterCache.register_batch_objects
  rw [hne, hc]
  simp [hall, hd, hs, hlen]

theorem register_batch_store_ok (store : List String → StoreReply (List Int))
    (cache : LRU) (vs : List Json) (canonicals : List String) (json_strs : List String)
    (ids : List Int) (hne : vs.isEmpty = false)
    (hc : mapOption canonicalise_json vs = some canonicals)
    (hall : canonicals.all cache.contains = false)
    (hd : mapOption json_dumps_default vs = some json_strs)
    (hs : store json_strs = .rows ids)
    (hlen : ids.length = vs.length) :
    JsonRegisterCache.register_batch_objects store cache vs =
      ⟨.ok ids, cache.putAll (canonicals.zip ids), [json_strs]⟩ := by
  unfold JsonRegisterCache.register_batch_objects
  rw [hne, hc]
  simp [hall, hd, hs, hlen]

/-- After a successful register_object, the canonical key is bound to the
returned id in the cache. -/
theorem register_object_success_cached
    (store : String → StoreReply (Option Int)) (cache : LRU) (v : Json) (id : Int)
    (h1 : (JsonRegisterCache.register_object store cache v).result = .ok id) :
    ∃ canonical, canonicalise_json v = some canonical ∧
      assocFind canonical (JsonRegisterCache.register_object store cache v).cache.entries =
        some id := by
  cases hc : canonicalise_json v with
  | none =>
    rw [register_object_canonical_none store cache v hc] at h1
    cases h1
  | some canonical =>
    refine ⟨canonical, rfl, ?_⟩
    cases hin : cache.contains canonical with
    | true =>
      rw [register_object_hit store cache v canonical hc hin] at h1 ⊢
      show assocFind canonical (cache.getRefresh canonical).2.entries = some id
      have hsome : (assocFind canonical cache.entries).isSome := hin
      obtain ⟨v0, hv0⟩ := Option.isSome_iff_exists.mp hsome
      have hfst : (cache.getRefresh canonical).1 = some v0 := by
        rw [getRefresh_fst, hv0]
      rw [hfst] at h1
      simp only [Option.getD_some] at h1
      have hid : v0 = id := Except.ok.inj h1
      rw [getRefresh_find_preserved, hv0, hid]
    | false =>
      cases hd : json_dumps_default v with
      | none =>
        rw [register_object_miss_dumps_none store cache v canonical hc hin hd] at h1
        cases h1
      | some json_str =>
        cases hs : store json_str with
        | fail =>
          rw [register_object_miss_fail store cache v canonical json_str hc hin hd hs] at h1
          cases h1
        | rows r =>
          cases r with
          | none =>
            rw [register_object_miss_rows_none store cache v canonical json_str hc hin hd hs] at h1
            cases h1
          | some obj_id =>
            rw [register_object_miss_rows_some store cache v canonical json_str obj_id
                hc hin hd hs] at h1 ⊢
            show assocFind canonical (cache.put canonical obj_id).entries = some id
            have : obj_id = id := Except.ok.inj h1
            subst this
            exact put_find_self cache canonical obj_id

/-! ## Claim theorems -/

/-- C3: if register_object(v) succeeds with some id, calling it again on the
same registrar returns the same id both times, and the second call is served
from the BoundedCache with no store access (its store trace is empty). -/
theorem register_object_idempotent
    (store : String → StoreReply (Option Int)) (cache : LRU) (v : Json) (id : Int)
    (h1 : (JsonRegisterCache.register_object store cache v).result = .ok id) :
    (JsonRegisterCache.register_object store
        (JsonRegisterCache.register_object store cache v).cache v).result = .ok id ∧
    (JsonRegisterCache.register_object store
        (JsonRegisterCache.register_object store cache v).cache v).storeCalls = [] := by
  obtain ⟨canonical, hc, hfind⟩ := register_object_success_cached store cache v id h1
  have hin : (JsonRegisterCache.register_object store cache v).cache.contains canonical = true := by
    unfold LRU.contains
    rw [hfind]
    rfl
  rw [register_object_hit store _ v canonical hc hin]
  constructor
  · show Except.ok
        (((JsonRegisterCache.register_object store cache v).cache.getRefresh canonical).1.getD 0) =
      Except.ok id
    rw [getRefresh_fst, hfind]
    rfl
  · rfl

/-- Witness for C3: registering the same object twice on an initially empty
cache returns the stored id both times. -/
theorem register_object_idempotent_witness :
    (JsonRegisterCache.register_object (fun _ => .rows (some 7))
        ((JsonRegisterCache.register_object (fun _ => .rows (some 7)) ⟨10, []⟩
            (.obj [(.kstr "a", .num 1)])).cache)
        (.obj [(.kstr "a", .num 1)])).result = .ok 7 :=
  (register_object_idempotent (fun _ => .rows (some 7)) ⟨10, []⟩
    (.obj [(.kstr "a", .num 1)]) 7 (by decide)).1

/-- C5: whenever register_object or register_batch_objects fails (with
CanonicalisationError, ConnectionError or InvalidResponseError), the
BoundedCache is exactly as it was before the call; the cache is mutated only
after a fully successful, correct-length store reply. -/
theorem register_failure_leaves_cache_unchanged :
    (∀ (store : String → StoreReply (Option Int)) (cache : LRU) (v : Json) (e : RegError),
      (JsonRegisterCache.register_object store cache v).result = .error e →
      (JsonRegisterCache.register_object store cache v).cache = cache) ∧
    (∀ (store : List String → StoreReply (List Int)) (cache : LRU) (vs : List Json)
      (e : RegError),
      (JsonRegisterCache.register_batch_objects store cache vs).result = .error e →
      (JsonRegisterCache.register_batch_objects store cache vs).cache = cache) := by
  constructor
  · intro store cache v e h
    cases hc : canonicalise_json v with
    | none => rw [register_object_canonical_none store cache v hc]
    | some canonical =>
      cases hin : cache.contains canonical with
      | true =>
        rw [register_object_hit store cache v canonical hc hin] at h
        simp at h
      | false =>
        cases hd : json_dumps_default v with
        | none => rw [register_object_miss_dumps_none store cache v canonical hc hin hd]
        | some json_str =>
          cases hs : store json_str with
          | fail => rw [register_object_miss_fail store cache v canonical json_str hc hin hd hs]
          | rows r =>
            cases r with
            | none =>
              rw [register_object_miss_rows_none store cache v canonical json_str hc hin hd hs]
            | some obj_id =>
              rw [register_object_miss_rows_some store cache v canonical json_str obj_id
                  hc hin hd hs] at h
              simp at h
  · intro store cache vs e h
    cases vs with
    | nil =>
      rw [register_batch_empty] at h
      simp at h
    | cons v vt =>
      have hne : (v :: vt).isEmpty = false := rfl
      cases hc : mapOption canonicalise_json (v :: vt) with
      | none => rw [register_batch_canonical_none store cache (v :: vt) hne hc]
      | some canonicals =>
        cases hall : canonicals.all cache.contains with
        | true =>
          rw [register_batch_all_cached store cache (v :: vt) canonicals hne hc hall] at h
          simp at h
        | false =>
          cases hd : mapOption json_dumps_default (v :: vt) with
          | none => rw [register_batch_dumps_none store cache (v :: vt) canonicals hne hc hall hd]
          | some json_strs =>
            cases hs : store json_strs with
            | fail =>
              rw [register_batch_store_fail store cache (v :: vt) canonicals json_strs
                  hne hc hall hd hs]
            | rows ids =>
              by_cases hlen : ids.length = (v :: vt).length
              · rw [register_batch_store_ok store cache (v :: vt) canonicals json_strs ids
                    hne hc hall hd hs hlen] at h
                simp at h
              · rw [register_batch_store_badlen store cache (v :: vt) canonicals json_strs ids
                    hne hc hall hd hs hlen]

/-- Witness for C5: a failing canonicalisation and a failing store call both
leave a non-empty cache untouched. -/
theorem register_failure_leaves_cache_unchanged_witness :
    (JsonRegisterCache.register_object (fun _ => .fail) ⟨10, [("k", 1)]⟩
        (.foreign "set")).cache = ⟨10, [("k", 1)]⟩ ∧
    (JsonRegisterCache.register_batch_objects (fun _ => .fail) ⟨10, [("k", 1)]⟩
        [.num 3]).cache = ⟨10, [("k", 1)]⟩ :=
  ⟨register_failure_leaves_cache_unchanged.1 (fun _ => .fail) ⟨10, [("k", 1)]⟩
      (.foreign "set") .canonicalisationError (by decide),
    register_failure_leaves_cache_unchanged.2 (fun _ => .fail) ⟨10, [("k", 1)]⟩
      [.num 3] .connectionError (by decide)⟩

/-- C2: two JSON values that are equal up to recursive object-key ordering
(same key-order normal form) canonicalise to the identical string — object
keys are sorted and whitespace removed, while array element order is
preserved unsorted.  The concrete spec examples appear in the witness. -/
theorem canonicalise_key_order_independence (v w : Json) (s : String)
    (hequiv : normalizeJson v = normalizeJson w)
    (hv : canonicalise_json v = some s) :
    canonicalise_json w = some s := by
  rw [← canonicalise_json_normalize w, ← hequiv, canonicalise_json_normalize v]
  exact hv

/-- Witness for C2: the two key orderings of the a/b object give the same
canonical string, and array order is preserved. -/
theorem canonicalise_key_order_independence_witness :
    canonicalise_json (.obj [(.kstr "a", .num 1), (.kstr "b", .num 2)]) =
      some "\x7b\"a\":1,\"b\":2\x7d" ∧
    canonicalise_json (.obj [(.kstr "items", .arr [.num 3, .num 1, .num 2])]) =
      some "\x7b\"items\":[3,1,2]\x7d" :=
  ⟨canonicalise_key_order_independence
      (.obj [(.kstr "b", .num 2), (.kstr "a", .num 1)])
      (.obj [(.kstr "a", .num 1), (.kstr "b", .num 2)])
      "\x7b\"a\":1,\"b\":2\x7d" (by rfl) (by decide),
    by decide⟩

/-- C7: register_batch_objects performs no store access on its fast paths:
the empty input returns the empty list with the cache untouched, and when
every element's canonical key is in the cache (a non-mutating membership
check) the cached ids are returned index-aligned without any store call. -/
theorem register_batch_fast_paths :
    (∀ (store : List String → StoreReply (List Int)) (cache : LRU),
      JsonRegisterCache.register_batch_objects store cache [] = ⟨.ok [], cache, []⟩) ∧
    (∀ (store : List String → StoreReply (List Int)) (cache : LRU) (vs : List Json)
      (canonicals : List String),
      mapOption canonicalise_json vs = some canonicals →
      (∀ c ∈ canonicals, cache.contains c = true) →
      (JsonRegisterCache.register_batch_objects store cache vs).storeCalls = [] ∧
      (JsonRegisterCache.register_batch_objects store cache vs).result =
        .ok (canonicals.map fun c => (assocFind c cache.entries).getD 0)) := by
  constructor
  · intro store cache
    exact register_batch_empty store cache
  · intro store cache vs canonicals hc hall
    cases vs with
    | nil =>
      have hcan : canonicals = [] := by
        have : (some [] : Option (List String)) = some canonicals := hc
        exact (Option.some.inj this).symm
      subst hcan
      rw [register_batch_empty]
      exact ⟨rfl, rfl⟩
    | cons v vt =>
      have hne : (v :: vt).isEmpty = false := rfl
      have hallb : canonicals.all cache.contains = true := by
        rw [List.all_eq_true]
        intro c hcmem
        exact hall c hcmem
      rw [register_batch_all_cached store cache (v :: vt) canonicals hne hc hallb]
      refine ⟨rfl, ?_⟩
      show Except.ok (cache.getAll canonicals).1 = _
      rw [getAll_fst]

/-- Witness for C7: with the canonical key of 1 cached, a batch of one cached
value makes no store call and returns the cached id. -/
theorem register_batch_fast_paths_witness :
    (JsonRegisterCache.register_batch_objects (fun _ => .fail) ⟨10, [("1", 5)]⟩
        [.num 1]).storeCalls = [] ∧
    (JsonRegisterCache.register_batch_objects (fun _ => .fail) ⟨10, [("1", 5)]⟩
        [.num 1]).result =
      .ok ((["1"] : List String).map fun c =>
        (assocFind c ((⟨10, [("1", 5)]⟩ : LRU)).entries).getD 0) :=
  register_batch_fast_paths.2 (fun _ => .fail) ⟨10, [("1", 5)]⟩ [.num 1] ["1"]
    (by decide) (by decide)

/-- C8: the synchronous and asynchronous registrars are behaviourally
equivalent: from the same cache state and with the same store replies,
register_object and register_batch_objects produce identical outcomes — same
returned ids, same raised error class, same final cache state and same store
calls.  Each side of the equation is transcribed from its own source file;
the blocking-versus-suspending transport difference is absorbed by the store
oracle and is outside this sequential model. -/
theorem sync_async_equivalent :
    (∀ (store : String → StoreReply (Option Int)) (cache : LRU) (v : Json),
      JsonRegisterCacheAsync.register_object store cache v =
        JsonRegisterCache.register_object store cache v) ∧
    (∀ (store : List String → StoreReply (List Int)) (cache : LRU) (vs : List Json),
      JsonRegisterCacheAsync.register_batch_objects store cache vs =
        JsonRegisterCache.register_batch_objects store cache vs) :=
  ⟨fun _ _ _ => rfl, fun _ _ _ => rfl⟩

/-- C4 counterexample: on a cache miss, the payload register_object sends to
the store is the default-separator, insertion-ordered json.dumps rendering,
which differs from the canonical string canonicalise produces for the same
value. -/
theorem store_payload_not_canonical_counterexample :
    (JsonRegisterCache.register_object (fun _ => .rows (some 1)) ⟨10, []⟩
        (.obj [(.kstr "b", .num 2), (.kstr "a", .num 1)])).storeCalls =
      ["\x7b\"b\": 2, \"a\": 1\x7d"] ∧
    canonicalise_json (.obj [(.kstr "b", .num 2), (.kstr "a", .num 1)]) =
      some "\x7b\"a\":1,\"b\":2\x7d" ∧
    ("\x7b\"b\": 2, \"a\": 1\x7d" : String) ≠ "\x7b\"a\":1,\"b\":2\x7d" :=
  ⟨by decide, by decide, by decide⟩

/-- C4 (amended): the serialized value register_object passes to the store on
a cache miss is `json.dumps(v, ensure_ascii=False)` — default separators and
original key order — which denotes the same JSON value as canonicalise(v)
(the store's jsonb column normalises) but is not the canonical byte string.
Only the cache key is the canonical string. -/
theorem store_payload_is_default_dumps
    (store : String → StoreReply (Option Int)) (cache : LRU) (v : Json)
    (canonical json_str : String)
    (hc : canonicalise_json v = some canonical)
    (hin : cache.contains canonical = false)
    (hd : json_dumps_default v = some json_str) :
    (JsonRegisterCache.register_object store cache v).storeCalls = [json_str] := by
  cases hs : store json_str with
  | fail =>
    rw [register_object_miss_fail store cache v canonical json_str hc hin hd hs]
  | rows r =>
    cases r with
    | none =>
      rw [register_object_miss_rows_none store cache v canonical json_str hc hin hd hs]
    | some obj_id =>
      rw [register_object_miss_rows_some store cache v canonical json_str obj_id hc hin hd hs]

/-- Witness for the amended C4: the store receives the default-dumps payload
for the b-before-a object. -/
theorem store_payload_is_default_dumps_witness :
    (JsonRegisterCache.register_object (fun _ => .rows (some 1)) ⟨10, []⟩
        (.obj [(.kstr "b", .num 2), (.kstr "a", .num 1)])).storeCalls =
      ["\x7b\"b\": 2, \"a\": 1\x7d"] :=
  store_payload_is_default_dumps (fun _ => .rows (some 1)) ⟨10, []⟩
    (.obj [(.kstr "b", .num 2), (.kstr "a", .num 1)])
    "\x7b\"a\":1,\"b\":2\x7d" "\x7b\"b\": 2, \"a\": 1\x7d"
    (by decide) (by decide) (by decide)

/-- A Boolean that is not true is false. -/
theorem bool_ne_true {b : Bool} (h : ¬ b = true) : b = false := by
  cases b with
  | false => rfl
  | true => exact absurd rfl h

/-- A Boolean whose negation is not true is true. -/
theorem bool_not_ne_true {b : Bool} (h : ¬ (!b) = true) : b = true := by
  cases b with
  | false => exact absurd rfl h
  | true => rfl

/-- A bad configuration is rejected by validate_config with some
ConfigurationError message. -/
theorem validate_config_rejects (c : Config)
    (hbad : c.database_host = "" ∨
      ¬ (1 ≤ c.database_port ∧ c.database_port ≤ 65535) ∨
      (∃ ch ∈ c.table_name.data, ¬ (ch.isAlphanum ∨ ch = '_')) ∨
      (∃ ch ∈ c.id_column.data, ¬ (ch.isAlphanum ∨ ch = '_')) ∨
      (∃ ch ∈ c.jsonb_column.data, ¬ (ch.isAlphanum ∨ ch = '_')) ∨
      c.lru_cache_size < 1 ∨ c.pool_size < 1) :
    ∃ msg, validate_config c = .error msg := by
  have keyfact : ∀ s : String, (∃ ch ∈ s.data, ¬ (ch.isAlphanum ∨ ch = '_')) →
      ¬ (s.data.isEmpty = false ∧ pyIsAlnum (removeUnderscores s) = true) := by
    rintro s ⟨ch, hmem, hch⟩ ⟨_, halnum⟩
    unfold pyIsAlnum removeUnderscores at halnum
    rw [Bool.and_eq_true, List.all_eq_true] at halnum
    have hne : ch ≠ '_' := fun h => hch (Or.inr h)
    have hmem2 : ch ∈ (String.mk (s.data.filter fun c => c != '_')).data := by
      show ch ∈ s.data.filter fun c => c != '_'
      rw [List.mem_filter]
      exact ⟨hmem, by simpa using hne⟩
    exact hch (Or.inl (halnum.2 ch hmem2))
  unfold validate_config
  split
  · exact ⟨_, rfl⟩
  next h1 =>
    split
    · exact ⟨_, rfl⟩
    next h2 =>
      split
      · exact ⟨_, rfl⟩
      next h3 =>
        split
        · exact ⟨_, rfl⟩
        next h4 =>
          split
          · exact ⟨_, rfl⟩
          next h5 =>
            split
            · exact ⟨_, rfl⟩
            next h6 =>
              split
              · exact ⟨_, rfl⟩
              next h7 =>
                split
                · exact ⟨_, rfl⟩
                next h8 =>
                  split
                  · exact ⟨_, rfl⟩
                  next h9 =>
                    exfalso
                    rw [Bool.or_eq_true] at h5 h6 h7
                    push_neg at h5 h6 h7
                    rcases hbad with hh | hh | hh | hh | hh | hh | hh
                    · apply h2
                      rw [hh]
                      rfl
                    · exact hh (not_not.mp h3)
                    · exact keyfact c.table_name hh
                        ⟨bool_ne_true h5.1, bool_not_ne_true h5.2⟩
                    · exact keyfact c.id_column hh
                        ⟨bool_ne_true h6.1, bool_not_ne_true h6.2⟩
                    · exact keyfact c.jsonb_column hh
                        ⟨bool_ne_true h7.1, bool_not_ne_true h7.2⟩
                    · exact h8 hh
                    · exact h9 hh

/-- C9: constructing a registrar with an empty database host, a port outside
1..65535, a table or column name containing a character that is neither
alphanumeric nor underscore, a cache capacity below 1, or a pool size below 1
raises ConfigurationError, and pool creation — the only step that touches the
network — is never attempted.  The names are restricted to ASCII, where the
model of Python's Unicode-aware str.isalnum is exact. -/
theorem construct_validates_before_connecting (c : Config) (poolOk : Bool)
    (hascii : ∀ s ∈ [c.table_name, c.id_column, c.jsonb_column],
      ∀ ch ∈ s.data, ch.toNat < 128)
    (hbad : c.database_host = "" ∨
      ¬ (1 ≤ c.database_port ∧ c.database_port ≤ 65535) ∨
      (∃ ch ∈ c.table_name.data, ¬ (ch.isAlphanum ∨ ch = '_')) ∨
      (∃ ch ∈ c.id_column.data, ¬ (ch.isAlphanum ∨ ch = '_')) ∨
      (∃ ch ∈ c.jsonb_column.data, ¬ (ch.isAlphanum ∨ ch = '_')) ∨
      c.lru_cache_size < 1 ∨ c.pool_size < 1) :
    (∃ msg, (jsonRegisterCache_construct c poolOk).result =
      .error (.configurationError msg)) ∧
    (jsonRegisterCache_construct c poolOk).poolAttempted = false := by
  obtain ⟨msg, hmsg⟩ := validate_config_rejects c hbad
  unfold jsonRegisterCache_construct
  rw [hmsg]
  exact ⟨⟨msg, rfl⟩, rfl⟩

/-- Witness for C9: port 0 with an injection-prone table name is rejected
before the pool is touched. -/
theorem construct_validates_before_connecting_witness :
    (∃ msg, (jsonRegisterCache_construct
        ⟨"db", "localhost", 0, "user", "users; DROP", "id", "json_object", 1000, 10⟩
        true).result = .error (.configurationError msg)) ∧
    (jsonRegisterCache_construct
        ⟨"db", "localhost", 0, "user", "users; DROP", "id", "json_object", 1000, 10⟩
        true).poolAttempted = false :=
  construct_validates_before_connecting
    ⟨"db", "localhost", 0, "user", "users; DROP", "id", "json_object", 1000, 10⟩ true
    (by decide) (by decide)

/-- Canonical form of a single-entry object: the key is rendered as a JSON
string (int keys through their decimal form) followed by the value. -/
theorem canonicalise_single_key (k : JKey) (v : Json) (s : String)
    (hv : canonicalise_json v = some s) :
    canonicalise_json (.obj [(k, v)]) =
      some ("\x7b" ++ (encode_basestring (jkeyStr k) ++ ":" ++ s) ++ "\x7d") := by
  unfold canonicalise_json at hv ⊢
  simp only [json_dumps]
  have hmix : mixedKeys [(k, v)] = false := by
    cases k <;> rfl
  rw [hmix]
  rw [json_dumpsEntries_eq_mapOption]
  simp [mapOption, hv, sortLE, insertLE]
  rfl

/-- C10: canonicalise does not reject a dict whose key is the int 1: the key
is coerced to its string form, so the canonical form equals that of the dict
with key "1"; consequently register_object assigns the two distinct inputs
the same id (the second registration is served by the first one's cache
entry). -/
theorem int_key_coerced (v : Json) (s : String)
    (hv : canonicalise_json v = some s)
    (store : String → StoreReply (Option Int)) (cache : LRU) (id : Int)
    (h1 : (JsonRegisterCache.register_object store cache
      (.obj [(.kint 1, v)])).result = .ok id) :
    Json.obj [(.kint 1, v)] ≠ Json.obj [(.kstr "1", v)] ∧
    canonicalise_json (.obj [(.kint 1, v)]) = canonicalise_json (.obj [(.kstr "1", v)]) ∧
    (∃ t, canonicalise_json (.obj [(.kint 1, v)]) = some t) ∧
    (JsonRegisterCache.register_object store
        (JsonRegisterCache.register_object store cache (.obj [(.kint 1, v)])).cache
        (.obj [(.kstr "1", v)])).result = .ok id := by
  have e1 := canonicalise_single_key (.kint 1) v s hv
  have e2 := canonicalise_single_key (.kstr "1") v s hv
  have hcan : canonicalise_json (.obj [(.kint 1, v)]) =
      canonicalise_json (.obj [(.kstr "1", v)]) := by
    rw [e1, e2]
    rfl
  refine ⟨?_, hcan, ⟨_, e1⟩, ?_⟩
  · intro h
    simp at h
  · obtain ⟨canonical, hc, hfind⟩ := register_object_success_cached store cache _ id h1
    have hc2 : canonicalise_json (.obj [(.kstr "1", v)]) = some canonical := by
      rw [← hcan]
      exact hc
    have hin : (JsonRegisterCache.register_object store cache
        (.obj [(.kint 1, v)])).cache.contains canonical = true := by
      unfold LRU.contains
      rw [hfind]
      rfl
    rw [register_object_hit store _ _ canonical hc2 hin]
    show Except.ok
        (((JsonRegisterCache.register_object store cache
          (.obj [(.kint 1, v)])).cache.getRefresh canonical).1.getD 0) = Except.ok id
    rw [getRefresh_fst, hfind]
    rfl

/-- Witness for C10 at the value 5. -/
theorem int_key_coerced_witness :
    (JsonRegisterCache.register_object (fun _ => .rows (some 9))
        ((JsonRegisterCache.register_object (fun _ => .rows (some 9)) ⟨10, []⟩
            (.obj [(.kint 1, .num 5)])).cache)
        (.obj [(.kstr "1", .num 5)])).result = .ok 9 :=
  (int_key_coerced (.num 5) "5" (by decide) (fun _ => .rows (some 9)) ⟨10, []⟩ 9
    (by decide)).2.2.2

theorem mapOption_isSome_mem {α β : Type} {f : α → Option β} :
    ∀ {l : List α} {bs : List β}, mapOption f l = some bs → ∀ a ∈ l, (f a).isSome := by
  intro l
  induction l with
  | nil =>
    intro bs _ a ha
    cases ha
  | cons x t ih =>
    intro bs h a ha
    simp only [mapOption] at h
    cases hfx : f x with
    | none => rw [hfx] at h; cases h
    | some b =>
      rw [hfx] at h
      cases hmt : mapOption f t with
      | none => rw [hmt] at h; cases h
      | some bs' =>
        rcases List.mem_cons.mp ha with rfl | ha2
        · rw [hfx]; rfl
        · exact ih hmt a ha2

theorem mapOption_isSome_of_forall {α β : Type} {f : α → Option β} :
    ∀ {l : List α}, (∀ a ∈ l, (f a).isSome) → ∃ bs, mapOption f l = some bs := by
  intro l
  induction l with
  | nil =>
    intro _
    exact ⟨[], rfl⟩
  | cons x t ih =>
    intro h
    obtain ⟨b, hb⟩ := Option.isSome_iff_exists.mp (h x (List.mem_cons_self x t))
    obtain ⟨bs, hbs⟩ := ih fun a ha => h a (List.mem_cons_of_mem x ha)
    exact ⟨b :: bs, by simp [mapOption, hb, hbs]⟩

theorem forall2_get {α β : Type} {R : α → β → Prop} :
    ∀ {l1 : List α} {l2 : List β}, List.Forall₂ R l1 l2 →
      ∀ i (h1 : i < l1.length) (h2 : i < l2.length),
        R (l1.get ⟨i, h1⟩) (l2.get ⟨i, h2⟩) := by
  intro l1 l2 h
  induction h with
  | nil =>
    intro i h1 _
    exact absurd h1 (Nat.not_lt_zero i)
  | cons hR htail ih =>
    intro i h1 h2
    cases i with
    | zero => exact hR
    | succ n => exact ih n (Nat.lt_of_succ_lt_succ h1) (Nat.lt_of_succ_lt_succ h2)

theorem get_map_nat {α β : Type} (f : α → β) (l : List α) (i : Nat)
    (h : i < (l.map f).length) (h' : i < l.length) :
    (l.map f).get ⟨i, h⟩ = f (l.get ⟨i, h'⟩) := by
  simp [List.get_eq_getElem, List.getElem_map]

/-- C1: under the §4.3 batch store contract — the reply carries one id per
input string, assigned by a function `f` of the payload that gives equal ids
to payloads of values with equal canonical form (Postgres jsonb equality is
value equality, so rows are deduplicated semantically) — a successful
register_batch_objects returns exactly one id per input, and positions whose
values share a canonical key carry equal ids, whether the ids came from the
cache fast path or from the single store round trip. -/
theorem register_batch_order_dedup
    (store : List String → StoreReply (List Int)) (f : String → Int)
    (hcontract : ∀ ins ids, store ins = .rows ids → ids = ins.map f)
    (hsem : ∀ (v w : Json) (cv sv sw : String), canonicalise_json v = some cv →
      canonicalise_json w = some cv → json_dumps_default v = some sv →
      json_dumps_default w = some sw → f sv = f sw)
    (cache : LRU) (vs : List Json) (ids : List Int)
    (hres : (JsonRegisterCache.register_batch_objects store cache vs).result = .ok ids) :
    ids.length = vs.length ∧
    ∀ i j (hi : i < ids.length) (hj : j < ids.length)
      (hi' : i < vs.length) (hj' : j < vs.length),
      canonicalise_json (vs.get ⟨i, hi'⟩) = canonicalise_json (vs.get ⟨j, hj'⟩) →
      ids.get ⟨i, hi⟩ = ids.get ⟨j, hj⟩ := by
  cases vs with
  | nil =>
    rw [register_batch_empty] at hres
    have hids : ids = [] := (Except.ok.inj hres).symm
    subst hids
    refine ⟨rfl, ?_⟩
    intro i j hi
    exact absurd hi (Nat.not_lt_zero i)
  | cons v vt =>
    have hne : (v :: vt).isEmpty = false := rfl
    cases hc : mapOption canonicalise_json (v :: vt) with
    | none =>
      rw [register_batch_canonical_none store cache _ hne hc] at hres
      cases hres
    | some canonicals =>
      have hlenc : canonicals.length = (v :: vt).length := mapOption_length hc
      have hf2 := (mapOption_forall2 canonicalise_json (v :: vt) canonicals).mp hc
      cases hall : canonicals.all cache.contains with
      | true =>
        rw [register_batch_all_cached store cache _ canonicals hne hc hall] at hres
        have hids : ids = (cache.getAll canonicals).1 := (Except.ok.inj hres).symm
        rw [getAll_fst] at hids
        subst hids
        constructor
        · rw [List.length_map]
          exact hlenc
        · intro i j hi hj hi' hj' hcanon
          have hci : i < canonicals.length := by
            rw [List.length_map] at hi
            exact hi
          have hcj : j < canonicals.length := by
            rw [List.length_map] at hj
            exact hj
          have e_i := forall2_get hf2 i hi' hci
          have e_j := forall2_get hf2 j hj' hcj
          have hkeys : canonicals.get ⟨i, hci⟩ = canonicals.get ⟨j, hcj⟩ := by
            have : some (canonicals.get ⟨i, hci⟩) = some (canonicals.get ⟨j, hcj⟩) :=
              e_i.symm.trans (hcanon.trans e_j)
            exact Option.some.inj this
          rw [get_map_nat _ _ i hi hci, get_map_nat _ _ j hj hcj, hkeys]
      | false =>
        cases hd : mapOption json_dumps_default (v :: vt) with
        | none =>
          rw [register_batch_dumps_none store cache _ canonicals hne hc hall hd] at hres
          cases hres
        | some json_strs =>
          cases hs : store json_strs with
          | fail =>
            rw [register_batch_store_fail store cache _ canonicals json_strs
                hne hc hall hd hs] at hres
            cases hres
          | rows ids0 =>
            by_cases hlen : ids0.length = (v :: vt).length
            · rw [register_batch_store_ok store cache _ canonicals json_strs ids0
                  hne hc hall hd hs hlen] at hres
              have hids : ids0 = ids := Except.ok.inj hres
              subst hids
              have hmap : ids0 = json_strs.map f := hcontract json_strs ids0 hs
              have hlens : json_strs.length = (v :: vt).length := mapOption_length hd
              have hfd := (mapOption_forall2 json_dumps_default (v :: vt) json_strs).mp hd
              refine ⟨hlen, ?_⟩
              intro i j hi hj hi' hj' hcanon
              have hsi : i < json_strs.length := by omega
              have hsj : j < json_strs.length := by omega
              have hci : i < canonicals.length := by omega
              have hcj : j < canonicals.length := by omega
              have e_i := forall2_get hf2 i hi' hci
              have e_j := forall2_get hf2 j hj' hcj
              have d_i := forall2_get hfd i hi' hsi
              have d_j := forall2_get hfd j hj' hsj
              have hkeys : canonicals.get ⟨i, hci⟩ = canonicals.get ⟨j, hcj⟩ := by
                have : some (canonicals.get ⟨i, hci⟩) = some (canonicals.get ⟨j, hcj⟩) :=
                  e_i.symm.trans (hcanon.trans e_j)
                exact Option.some.inj this
              have e_j' : canonicalise_json ((v :: vt).get ⟨j, hj'⟩) =
                  some (canonicals.get ⟨i, hci⟩) := by
                rw [hkeys]
                exact e_j
              have hff : f (json_strs.get ⟨i, hsi⟩) = f (json_strs.get ⟨j, hsj⟩) :=
                hsem ((v :: vt).get ⟨i, hi'⟩) ((v :: vt).get ⟨j, hj'⟩)
                  (canonicals.get ⟨i, hci⟩) (json_strs.get ⟨i, hsi⟩)
                  (json_strs.get ⟨j, hsj⟩) e_i e_j' d_i d_j
              have hgi : ids0.get ⟨i, hi⟩ = f (json_strs.get ⟨i, hsi⟩) := by
                rw [List.get_of_eq hmap ⟨i, hi⟩]
                exact get_map_nat f json_strs i _ hsi
              have hgj : ids0.get ⟨j, hj⟩ = f (json_strs.get ⟨j, hsj⟩) := by
                rw [List.get_of_eq hmap ⟨j, hj⟩]
                exact get_map_nat f json_strs j _ hsj
              rw [hgi, hgj, hff]
            · rw [register_batch_store_badlen store cache _ canonicals json_strs ids0
                  hne hc hall hd hs hlen] at hres
              cases hres

/-- Witness for C1: a batch with a duplicated value registers through the
store and yields one id per input with the duplicate positions equal. -/
theorem register_batch_order_dedup_witness :
    (([7, 7, 7] : List Int).length =
      ([Json.obj [(.kstr "a", .num 1)], Json.num 2,
        Json.obj [(.kstr "a", .num 1)]] : List Json).length) ∧
    (([7, 7, 7] : List Int).get ⟨0, by decide⟩ = ([7, 7, 7] : List Int).get ⟨2, by decide⟩) :=
  ⟨(register_batch_order_dedup (fun ins => .rows (ins.map fun _ => 7)) (fun _ => 7)
      (fun _ _ h => (StoreReply.rows.inj h).symm) (fun _ _ _ _ _ _ _ _ _ => rfl)
      ⟨10, []⟩ [Json.obj [(.kstr "a", .num 1)], Json.num 2, Json.obj [(.kstr "a", .num 1)]]
      [7, 7, 7] (by decide)).1,
    (register_batch_order_dedup (fun ins => .rows (ins.map fun _ => 7)) (fun _ => 7)
      (fun _ _ h => (StoreReply.rows.inj h).symm) (fun _ _ _ _ _ _ _ _ _ => rfl)
      ⟨10, []⟩ [Json.obj [(.kstr "a", .num 1)], Json.num 2, Json.obj [(.kstr "a", .num 1)]]
      [7, 7, 7] (by decide)).2 0 2 (by decide) (by decide) (by decide) (by decide) (by decide)⟩

/-! ## Graph encoder lemmas (C6) -/

theorem getElem?_some_lt {heap : Heap} {i : Nat} {o : PyObj} (h : heap[i]? = some o) :
    i < heap.length := by
  by_contra hge
  rw [List.getElem?_eq_none (Nat.le_of_not_lt hge)] at h
  cases h

theorem nodup_bounded_length {L : Nat} {l : List Nat} (hnd : l.Nodup)
    (hb : ∀ m ∈ l, m < L) : l.length ≤ L := by
  have hsub : l.toFinset ⊆ Finset.range L := by
    intro x hx
    rw [List.mem_toFinset] at hx
    exact Finset.mem_range.mpr (hb x hx)
  have hcard := Finset.card_le_card hsub
  rw [List.toFinset_card_of_nodup hnd, Finset.card_range] at hcard
  exact hcard

theorem encParts_ok_mem {enc : Nat → Except EncErr String} :
    ∀ {rs : List Nat} {ss : List String}, encParts enc rs = .ok ss →
      ∀ r ∈ rs, ∃ s, enc r = .ok s := by
  intro rs
  induction rs with
  | nil =>
    intro ss _ r hr
    cases hr
  | cons x t ih =>
    intro ss h r hr
    simp only [encParts] at h
    cases hx : enc x with
    | error e => rw [hx] at h; cases h
    | ok s =>
      rw [hx] at h
      cases ht : encParts enc t with
      | error e => rw [ht] at h; cases h
      | ok ss' =>
        rcases List.mem_cons.mp hr with rfl | hr2
        · exact ⟨s, hx⟩
        · exact ih ht r hr2

theorem encParts_error {enc : Nat → Except EncErr String} :
    ∀ {rs : List Nat} {e : EncErr}, encParts enc rs = .error e →
      ∃ r ∈ rs, enc r = .error e := by
  intro rs
  induction rs with
  | nil =>
    intro e h
    cases h
  | cons x t ih =>
    intro e h
    simp only [encParts] at h
    cases hx : enc x with
    | error e' =>
      rw [hx] at h
      have : e' = e := Except.error.inj h
      subst this
      exact ⟨x, List.mem_cons_self x t, hx⟩
    | ok s =>
      rw [hx] at h
      cases ht : encParts enc t with
      | error e' =>
        rw [ht] at h
        have : e' = e := Except.error.inj h
        subst this
        obtain ⟨r, hr, hre⟩ := ih ht
        exact ⟨r, List.mem_cons_of_mem x hr, hre⟩
      | ok ss' => rw [ht] at h; cases h

theorem encEntryParts_ok_mem {enc : Nat → Except EncErr String} :
    ∀ {ps : List (String × Nat)} {ss : List String}, encEntryParts enc ps = .ok ss →
      ∀ p ∈ ps, ∃ s, enc p.2 = .ok s := by
  intro ps
  induction ps with
  | nil =>
    intro ss _ p hp
    cases hp
  | cons x t ih =>
    intro ss h p hp
    obtain ⟨k, r⟩ := x
    simp only [encEntryParts] at h
    cases hx : enc r with
    | error e => rw [hx] at h; cases h
    | ok s =>
      rw [hx] at h
      cases ht : encEntryParts enc t with
      | error e => rw [ht] at h; cases h
      | ok ss' =>
        rcases List.mem_cons.mp hp with rfl | hp2
        · exact ⟨s, hx⟩
        · exact ih ht p hp2

theorem encEntryParts_error {enc : Nat → Except EncErr String} :
    ∀ {ps : List (String × Nat)} {e : EncErr}, encEntryParts enc ps = .error e →
      ∃ p ∈ ps, enc p.2 = .error e := by
  intro ps
  induction ps with
  | nil =>
    intro e h
    cases h
  | cons x t ih =>
    intro e h
    obtain ⟨k, r⟩ := x
    simp only [encEntryParts] at h
    cases hx : enc r with
    | error e' =>
      rw [hx] at h
      have : e' = e := Except.error.inj h
      subst this
      exact ⟨(k, r), List.mem_cons_self _ t, hx⟩
    | ok s =>
      rw [hx] at h
      cases ht : encEntryParts enc t with
      | error e' =>
        rw [ht] at h
        have : e' = e := Except.error.inj h
        subst this
        obtain ⟨p, hp, hpe⟩ := ih ht
        exact ⟨p, List.mem_cons_of_mem _ hp, hpe⟩
      | ok ss' => rw [ht] at h; cases h

/-- Fuel sufficiency: with more fuel than unmarked heap nodes, the encoder
never runs out of fuel (the markers strictly grow along every descent). -/
theorem iterencode_no_fuelOut (heap : Heap) (hwf : HeapWF heap) :
    ∀ fuel (markers : List Nat) i, markers.Nodup → (∀ m ∈ markers, m < heap.length) →
      heap.length - markers.length < fuel →
      iterencode heap fuel markers i ≠ .error .fuelOut := by
  intro fuel
  induction fuel with
  | zero =>
    intro markers i _ _ hlt
    omega
  | succ fuel ih =>
    intro markers i hnd hb hlt
    cases hget : heap[i]? with
    | none => simp [iterencode, hget]
    | some o =>
      cases o with
      | onull => simp [iterencode, hget]
      | obool b => simp [iterencode, hget]
      | oint n => simp [iterencode, hget]
      | ostr s => simp [iterencode, hget]
      | oforeign t => simp [iterencode, hget]
      | olist elems =>
        by_cases hmem : i ∈ markers
        · simp [iterencode, hget, hmem]
        · have hi : i < heap.length := getElem?_some_lt hget
          have hnd' : (i :: markers).Nodup := List.nodup_cons.mpr ⟨hmem, hnd⟩
          have hb' : ∀ m ∈ i :: markers, m < heap.length := by
            intro m hm
            rcases List.mem_cons.mp hm with rfl | hm2
            · exact hi
            · exact hb m hm2
          have hlb : (i :: markers).length ≤ heap.length := nodup_bounded_length hnd' hb'
          have hlt' : heap.length - (i :: markers).length < fuel := by
            simp only [List.length_cons] at hlb ⊢
            omega
          intro hcontra
          simp only [iterencode, hget] at hcontra
          rw [if_neg hmem] at hcontra
          cases hp : encParts (iterencode heap fuel (i :: markers)) elems with
          | error e =>
            rw [hp] at hcontra
            have he : e = .fuelOut := Except.error.inj hcontra
            subst he
            obtain ⟨r, _, hr⟩ := encParts_error hp
            exact ih (i :: markers) r hnd' hb' hlt' hr
          | ok parts =>
            rw [hp] at hcontra
            cases hcontra
      | odict kvs =>
        by_cases hmem : i ∈ markers
        · simp [iterencode, hget, hmem]
        · have hi : i < heap.length := getElem?_some_lt hget
          have hnd' : (i :: markers).Nodup := List.nodup_cons.mpr ⟨hmem, hnd⟩
          have hb' : ∀ m ∈ i :: markers, m < heap.length := by
            intro m hm
            rcases List.mem_cons.mp hm with rfl | hm2
            · exact hi
            · exact hb m hm2
          have hlb : (i :: markers).length ≤ heap.length := nodup_bounded_length hnd' hb'
          have hlt' : heap.length - (i :: markers).length < fuel := by
            simp only [List.length_cons] at hlb ⊢
            omega
          intro hcontra
          simp only [iterencode, hget] at hcontra
          rw [if_neg hmem] at hcontra
          cases hp : encEntryParts (iterencode heap fuel (i :: markers))
              (sortLE strPairLE kvs) with
          | error e =>
            rw [hp] at hcontra
            have he : e = .fuelOut := Except.error.inj hcontra
            subst he
            obtain ⟨p, _, hp2⟩ := encEntryParts_error hp
            exact ih (i :: markers) p.2 hnd' hb' hlt' hp2
          | ok parts =>
            rw [hp] at hcontra
            cases hcontra

theorem childrenAt_of_get {heap : Heap} {i : Nat} {o : PyObj} (h : heap[i]? = some o) :
    childrenAt heap i = children o := by
  unfold childrenAt
  rw [h]

/-- A successful encoding of a node yields a successful encoding of each
child, under the extended markers. -/
theorem iterencode_ok_child (heap : Heap) {fuel : Nat} {markers : List Nat} {i : Nat}
    {s : String} (h : iterencode heap fuel markers i = .ok s) {c : Nat}
    (hc : Edge heap i c) :
    ∃ s', iterencode heap (fuel - 1) (i :: markers) c = .ok s' := by
  cases fuel with
  | zero => cases h
  | succ fuel =>
    cases hget : heap[i]? with
    | none => simp [iterencode, hget] at h
    | some o =>
      have hch : childrenAt heap i = children o := childrenAt_of_get hget
      cases o with
      | onull => unfold Edge at hc; rw [hch] at hc; cases hc
      | obool b => unfold Edge at hc; rw [hch] at hc; cases hc
      | oint n => unfold Edge at hc; rw [hch] at hc; cases hc
      | ostr t => unfold Edge at hc; rw [hch] at hc; cases hc
      | oforeign t => simp [iterencode, hget] at h
      | olist elems =>
        have hcmem : c ∈ elems := by
          unfold Edge at hc
          rw [hch] at hc
          exact hc
        by_cases hmem : i ∈ markers
        · simp [iterencode, hget, hmem] at h
        · simp only [iterencode, hget] at h
          rw [if_neg hmem] at h
          cases hp : encParts (iterencode heap fuel (i :: markers)) elems with
          | error e => rw [hp] at h; cases h
          | ok parts =>
            have := encParts_ok_mem hp c hcmem
            simpa using this
      | odict kvs =>
        have hcmem : c ∈ kvs.map Prod.snd := by
          unfold Edge at hc
          rw [hch] at hc
          exact hc
        obtain ⟨p, hpmem, hpc⟩ := List.mem_map.mp hcmem
        by_cases hmem : i ∈ markers
        · simp [iterencode, hget, hmem] at h
        · simp only [iterencode, hget] at h
          rw [if_neg hmem] at h
          cases hp : encEntryParts (iterencode heap fuel (i :: markers))
              (sortLE strPairLE kvs) with
          | error e => rw [hp] at h; cases h
          | ok parts =>
            have hpmem' : p ∈ sortLE strPairLE kvs := (mem_sortLE strPairLE kvs p).mpr hpmem
            have := encEntryParts_ok_mem hp p hpmem'
            rw [hpc] at this
            simpa using this

/-- A container already on the current path never encodes successfully: the
circular-reference check fires first. -/
theorem iterencode_marker_container (heap : Heap) {fuel : Nat} {markers : List Nat}
    {j : Nat} (hj : j ∈ markers) (hcont : childrenAt heap j ≠ []) :
    ∀ s, iterencode heap fuel markers j ≠ .ok s := by
  intro s
  cases fuel with
  | zero => intro h; cases h
  | succ fuel =>
    cases hget : heap[j]? with
    | none =>
      exfalso
      apply hcont
      unfold childrenAt
      rw [hget]
    | some o =>
      have hch : childrenAt heap j = children o := childrenAt_of_get hget
      cases o with
      | onull => exact absurd hch hcont
      | obool b => exact absurd hch hcont
      | oint n => exact absurd hch hcont
      | ostr t => exact absurd hch hcont
      | oforeign t => simp [iterencode, hget]
      | olist elems => simp [iterencode, hget, hj]
      | odict kvs => simp [iterencode, hget, hj]

/-- Every node reachable from a successfully encoded node is itself encoded
successfully somewhere in the run, with markers extending the original. -/
theorem reached_ok (heap : Heap) :
    ∀ {i j}, Reaches heap i j →
      ∀ fuel (markers : List Nat) s, iterencode heap fuel markers i = .ok s →
        ∃ fuel' markers' s', iterencode heap fuel' markers' j = .ok s' ∧
          markers ⊆ markers' := by
  intro i j hreach
  induction hreach using Relation.ReflTransGen.head_induction_on with
  | refl =>
    intro fuel markers s h
    exact ⟨fuel, markers, s, h, fun _ hx => hx⟩
  | head hstep _ ih =>
    intro fuel markers s h
    obtain ⟨s', hs'⟩ := iterencode_ok_child heap h hstep
    obtain ⟨fuel', markers', s'', h'', hsub⟩ := ih (fuel - 1) (_ :: markers) s' hs'
    exact ⟨fuel', markers', s'', h'', fun _ hx => hsub (List.mem_cons_of_mem _ hx)⟩

/-- Success implies no reachable cycle: walking into the cycle would meet a
marked container. -/
theorem iterencode_ok_no_cycle (heap : Heap) {fuel : Nat} {markers : List Nat}
    {i : Nat} {s : String} (h : iterencode heap fuel markers i = .ok s) :
    ¬ CyclicFrom heap i := by
  rintro ⟨j, hij, hjj⟩
  obtain ⟨f1, m1, s1, h1, _⟩ := reached_ok heap hij fuel markers s h
  obtain ⟨c, hjc, hcj⟩ := (Relation.TransGen.head'_iff).mp hjj
  obtain ⟨s2, h2⟩ := iterencode_ok_child heap h1 hjc
  obtain ⟨f3, m3, s3, h3, hsub⟩ := reached_ok heap hcj (f1 - 1) (j :: m1) s2 h2
  have hjm3 : j ∈ m3 := hsub (List.mem_cons_self j m1)
  exact iterencode_marker_container heap hjm3 (List.ne_nil_of_mem hjc) s3 h3

/-- Success implies no reachable non-serialisable object. -/
theorem iterencode_ok_no_foreign (heap : Heap) {fuel : Nat} {markers : List Nat}
    {i : Nat} {s : String} (h : iterencode heap fuel markers i = .ok s) :
    ¬ ForeignFrom heap i := by
  rintro ⟨j, t, hij, hj⟩
  obtain ⟨f1, m1, s1, h1, _⟩ := reached_ok heap hij fuel markers s h
  cases f1 with
  | zero => cases h1
  | succ f => simp [iterencode, hj] at h1

/-- On an acyclic, fully serialisable region of a well-formed heap, the only
error the encoder could possibly report is fuel exhaustion (which fuel
sufficiency excludes separately): the circular check never fires because the
markers are path ancestors, and no foreign node is reachable. -/
theorem iterencode_good (heap : Heap) (hwf : HeapWF heap) :
    ∀ fuel (markers : List Nat) i,
      (∀ m ∈ markers, Relation.TransGen (Edge heap) m i) →
      ¬ CyclicFrom heap i → ¬ ForeignFrom heap i → i < heap.length →
      ∀ e, iterencode heap fuel markers i = .error e → e = .fuelOut := by
  intro fuel
  induction fuel with
  | zero =>
    intro markers i _ _ _ _ e he
    have h0 : iterencode heap 0 markers i = .error .fuelOut := rfl
    rw [h0] at he
    exact (Except.error.inj he).symm
  | succ fuel ih =>
    intro markers i hmk hnc hnf hi e he
    cases hget : heap[i]? with
    | none =>
      rw [List.getElem?_eq_getElem hi] at hget
      cases hget
    | some o =>
      have hch : childrenAt heap i = children o := childrenAt_of_get hget
      cases o with
      | onull => simp [iterencode, hget] at he
      | obool b => simp [iterencode, hget] at he
      | oint n => simp [iterencode, hget] at he
      | ostr t => simp [iterencode, hget] at he
      | oforeign t =>
        exact absurd ⟨i, t, Relation.ReflTransGen.refl, hget⟩ hnf
      | olist elems =>
        by_cases hmem : i ∈ markers
        · exact absurd ⟨i, Relation.ReflTransGen.refl, hmk i hmem⟩ hnc
        · simp only [iterencode, hget] at he
          rw [if_neg hmem] at he
          cases hp : encParts (iterencode heap fuel (i :: markers)) elems with
          | ok parts => rw [hp] at he; cases he
          | error e' =>
            rw [hp] at he
            have he' : e' = e := Except.error.inj he
            subst he'
            obtain ⟨c, hcmem, hc⟩ := encParts_error hp
            have hedge : Edge heap i c := by
              unfold Edge
              rw [hch]
              exact hcmem
            have hmk' : ∀ m ∈ i :: markers, Relation.TransGen (Edge heap) m c := by
              intro m hm
              rcases List.mem_cons.mp hm with rfl | hm2
              · exact Relation.TransGen.single hedge
              · exact (hmk m hm2).tail hedge
            have hnc' : ¬ CyclicFrom heap c := by
              rintro ⟨j, hcj, hjj⟩
              exact hnc ⟨j, Relation.ReflTransGen.head hedge hcj, hjj⟩
            have hnf' : ¬ ForeignFrom heap c := by
              rintro ⟨j, t, hcj, hj⟩
              exact hnf ⟨j, t, Relation.ReflTransGen.head hedge hcj, hj⟩
            have hclt : c < heap.length := hwf i c hedge
            exact ih (i :: markers) c hmk' hnc' hnf' hclt e' hc
      | odict kvs =>
        by_cases hmem : i ∈ markers
        · exact absurd ⟨i, Relation.ReflTransGen.refl, hmk i hmem⟩ hnc
        · simp only [iterencode, hget] at he
          rw [if_neg hmem] at he
          cases hp : encEntryParts (iterencode heap fuel (i :: markers))
              (sortLE strPairLE kvs) with
          | ok parts => rw [hp] at he; cases he
          | error e' =>
            rw [hp] at he
            have he' : e' = e := Except.error.inj he
            subst he'
            obtain ⟨p, hpmem, hp2⟩ := encEntryParts_error hp
            have hpmem2 : p ∈ kvs := (mem_sortLE strPairLE kvs p).mp hpmem
            have hedge : Edge heap i p.2 := by
              unfold Edge
              rw [hch]
              exact List.mem_map_of_mem Prod.snd hpmem2
            have hmk' : ∀ m ∈ i :: markers, Relation.TransGen (Edge heap) m p.2 := by
              intro m hm
              rcases List.mem_cons.mp hm with rfl | hm2
              · exact Relation.TransGen.single hedge
              · exact (hmk m hm2).tail hedge
            have hnc' : ¬ CyclicFrom heap p.2 := by
              rintro ⟨j, hcj, hjj⟩
              exact hnc ⟨j, Relation.ReflTransGen.head hedge hcj, hjj⟩
            have hnf' : ¬ ForeignFrom heap p.2 := by
              rintro ⟨j, t, hcj, hj⟩
              exact hnf ⟨j, t, Relation.ReflTransGen.head hedge hcj, hj⟩
            have hclt : p.2 < heap.length := hwf i p.2 hedge
            exact ih (i :: markers) p.2 hmk' hnc' hnf' hclt e' hp2

/-- C6: over the heap model of Python objects, `canonicalise` (json.dumps via
the marker-tracking encoder, run with fuel heap-size + 1) never exhausts its
fuel — it always terminates rather than hanging — and it succeeds exactly
when the structure rooted at `i` is acyclic and contains no non-serialisable
object; equivalently, a self-referential or non-serialisable structure always
fails with one of the two errors canonicalise_json converts to
CanonicalisationError, and every valid acyclic JsonValue is encoded. -/
theorem canonicalise_cycle_rejection (heap : Heap) (i : Nat)
    (hwf : HeapWF heap) (hi : i < heap.length) :
    iterencode heap (heap.length + 1) [] i ≠ .error .fuelOut ∧
    ((∃ s, iterencode heap (heap.length + 1) [] i = .ok s) ↔
      (¬ CyclicFrom heap i ∧ ¬ ForeignFrom heap i)) := by
  have hnfuel := iterencode_no_fuelOut heap hwf (heap.length + 1) [] i List.nodup_nil
    (by intro m hm; cases hm) (by omega)
  refine ⟨hnfuel, ?_, ?_⟩
  · rintro ⟨s, hs⟩
    exact ⟨iterencode_ok_no_cycle heap hs, iterencode_ok_no_foreign heap hs⟩
  · rintro ⟨hnc, hnfg⟩
    cases hres : iterencode heap (heap.length + 1) [] i with
    | ok s => exact ⟨s, rfl⟩
    | error e =>
      have he := iterencode_good heap hwf (heap.length + 1) [] i
        (by intro m hm; cases hm) hnc hnfg hi e hres
      subst he
      exact absurd hres hnfuel

/-- Edges that always increase the index admit no cycle. -/
theorem no_cycle_of_increasing {heap : Heap}
    (h : ∀ a, a < heap.length → ∀ b ∈ childrenAt heap a, a < b) (i : Nat) :
    ¬ CyclicFrom heap i := by
  have hmono : ∀ a b, Edge heap a b → a < b := by
    intro a b hab
    by_cases ha : a < heap.length
    · exact h a ha b hab
    · exfalso
      unfold Edge childrenAt at hab
      rw [List.getElem?_eq_none (Nat.le_of_not_lt ha)] at hab
      cases hab
  have htrans : ∀ a b, Relation.TransGen (Edge heap) a b → a < b := by
    intro a b hab
    induction hab with
    | single h1 => exact hmono _ _ h1
    | tail _ h1 ih => exact Nat.lt_trans ih (hmono _ _ h1)
  rintro ⟨j, _, hjj⟩
  exact Nat.lt_irrefl j (htrans j j hjj)

/-- A heap without foreign nodes has no reachable foreign node. -/
theorem no_foreign_of_all {heap : Heap}
    (h : heap.all (fun o => !isForeignObj o) = true) (i : Nat) :
    ¬ ForeignFrom heap i := by
  rintro ⟨j, t, _, hj⟩
  rw [List.all_eq_true] at h
  have hmem : PyObj.oforeign t ∈ heap := List.getElem?_mem hj
  have := h _ hmem
  simp [isForeignObj] at this

/-- HeapWF follows from the in-range part alone. -/
theorem heapWF_of_bounded {heap : Heap}
    (h : ∀ a, a < heap.length → ∀ b ∈ childrenAt heap a, b < heap.length) :
    HeapWF heap := by
  intro a b hb
  by_cases ha : a < heap.length
  · exact h a ha b hb
  · exfalso
    unfold childrenAt at hb
    rw [List.getElem?_eq_none (Nat.le_of_not_lt ha)] at hb
    cases hb

/-- Witness for C6: an acyclic two-node heap (a dict whose entry points at an
int) is encoded successfully, with the expected canonical output. -/
theorem canonicalise_cycle_rejection_witness :
    (∃ s, iterencode [PyObj.odict [("a", 1)], PyObj.oint 5]
      (([PyObj.odict [("a", 1)], PyObj.oint 5] : Heap).length + 1) [] 0 = .ok s) ∧
    iterencode [PyObj.odict [("a", 1)], PyObj.oint 5] 3 [] 0 = .ok "\x7b\"a\":5\x7d" :=
  ⟨(canonicalise_cycle_rejection [PyObj.odict [("a", 1)], PyObj.oint 5] 0
      (heapWF_of_bounded (by decide)) (by decide)).2.mpr
      ⟨no_cycle_of_increasing (by decide) 0, no_foreign_of_all (by decide) 0⟩,
    by decide⟩
